import Mathlib

/-!
Verification development for the segment-to-shard packaging and upload pipeline
of the multilingual TTS parliament corpus repository
(countries/upload_dataset: generate_manifest.py, create_local_webdataset_shards.py,
scripts/batch_upload.py, scripts/utils.py).

The Python code is shallowly embedded: fractional quantities (seconds, CER,
megabytes, hours) are modelled as rationals, CSV tables as lists of structures,
external effects (audio decoding, pushes to the remote hub, file-system writes)
as explicit oracle parameters or effect traces.  Each definition mirrors one
Python function and keeps its name where Lean allows it.
-/

namespace UploadPipeline

/-! ## scripts/utils.py -/

/-- `int(x * 1000)`: truncation toward zero of `x * 1000`, computed directly
on the fraction (`num * 1000 / den` with truncating division), which is the
value Python computes. -/
def msTrunc (q : ℚ) : ℤ :=
  Int.tdiv (q.num * 1000) (Int.ofNat q.den)

/-- `utils.generate_segment_key`: the segment key string
`country_video_startms_endms` with start/end truncated to whole milliseconds
by `int(x * 1000)`. -/
def generate_segment_key (country video_id : String) (start_seconds end_seconds : ℚ) :
    String :=
  country ++ "_" ++ video_id ++ "_" ++ toString (msTrunc start_seconds)
    ++ "_" ++ toString (msTrunc end_seconds)

/-- `utils.LANGUAGE_MAP`. -/
def LANGUAGE_MAP : List (String × String) :=
  [("germany", "de"), ("serbia", "sr")]

/-- `utils.get_language_code`. -/
def get_language_code (country_name : String) : Option String :=
  LANGUAGE_MAP.lookup country_name.toLower

/-! ## generate_manifest.py : data model -/

/-- One entry of the `segments` list of an alignment JSON file.  Every field is
optional, as `dict.get` returns `None` for a missing field. -/
structure SegIn where
  startS? : Option ℚ
  endS? : Option ℚ
  asr? : Option String
  human? : Option String
  cer? : Option ℚ
  startIdx? : Option ℤ
  endIdx? : Option ℤ
  deriving DecidableEq

/-- One alignment JSON file together with the values the generator derives from
its path by deterministic string munging (country directory name, video id
parsed from the audio path, transcript id parsed from the JSON filename).  The
derivations are pure functions of the paths, so across runs over unchanged
input they yield the same values; they are carried as fields. -/
structure AlignFile where
  audio_file? : Option String
  segments : List SegIn
  country : String
  video_id? : Option String
  transcript_id? : Option String
  deriving DecidableEq

/-- One row of the per-country manifest CSV. -/
structure Record where
  key : String
  country : String
  language : String
  video_id : String
  transcript_id : String
  source_audio_path : String
  start_seconds : ℚ
  end_seconds : ℚ
  duration_seconds : ℚ
  asr_transcript : String
  human_transcript : String
  cer : ℚ
  wer? : Option ℚ
  original_transcript_start_idx : ℤ
  original_transcript_end_idx : ℤ
  status : String
  split : String
  deriving DecidableEq

/-- Keys of a manifest (the `existing_keys` set is rebuilt from the manifest
rows at the start of a run and extended with each appended row). -/
def keysOf (m : List Record) : List String :=
  m.map (·.key)

/-- Source audio paths of a manifest (`existing_audio_paths_for_country`). -/
def pathsOf (m : List Record) : List String :=
  m.map (·.source_audio_path)

/-! ## generate_manifest.py : process_alignment_file -/

/-- The required fields of a segment entry, or `none` when any is missing
(the `None in [start, end, asr_text, human_text, cer, start_idx, end_idx]`
check). -/
def segFields? (s : SegIn) : Option (ℚ × ℚ × String × String × ℚ × ℤ × ℤ) :=
  match s.startS?, s.endS?, s.asr?, s.human?, s.cer?, s.startIdx?, s.endIdx? with
  | some st, some en, some asr, some hum, some cer, some si, some ei =>
    some (st, en, asr, hum, cer, si, ei)
  | _, _, _, _, _, _, _ => none

/-- The per-segment loop of `process_alignment_file`: a segment with any
missing field is skipped, a non-positive duration is skipped, a segment whose
key is already known is silently dropped, and otherwise a row with status
"pending" is appended and the key recorded.  `calcWer` is the external
`jiwer`-based WER computation (`utils.calculate_wer`). -/
def processSegments (calcWer : String → String → Option ℚ)
    (country language video_id transcript_id source_path : String) :
    List SegIn → List String → List Record
  | [], _ => []
  | s :: rest, keys =>
    match segFields? s with
    | none =>
      processSegments calcWer country language video_id transcript_id source_path rest keys
    | some (st, en, asr, hum, cer, si, ei) =>
      if en - st ≤ 0 then
        processSegments calcWer country language video_id transcript_id source_path rest keys
      else
        let key := generate_segment_key country video_id st en
        if key ∈ keys then
          processSegments calcWer country language video_id transcript_id source_path rest keys
        else
          { key := key, country := country, language := language,
            video_id := video_id, transcript_id := transcript_id,
            source_audio_path := source_path,
            start_seconds := st, end_seconds := en, duration_seconds := en - st,
            asr_transcript := asr, human_transcript := hum,
            cer := cer, wer? := calcWer hum asr,
            original_transcript_start_idx := si, original_transcript_end_idx := ei,
            status := "pending", split := "" } ::
          processSegments calcWer country language video_id transcript_id source_path rest
            (key :: keys)

/-- The header data `process_alignment_file` derives before touching segments:
language code, video id, transcript id and source audio path; `none` when any
derivation fails (each such failure skips the file wholesale). -/
def fileHeader? (f : AlignFile) : Option (String × String × String × String) :=
  match get_language_code f.country, f.video_id?, f.transcript_id?, f.audio_file? with
  | some l, some v, some t, some p => some (l, v, t, p)
  | _, _, _, _ => none

/-- `process_alignment_file`: skips the whole file when the header cannot be
derived or when the source audio path is already represented in the manifest
(restart safety); otherwise runs the segment loop.  Returns the new rows. -/
def process_alignment_file (calcWer : String → String → Option ℚ)
    (f : AlignFile) (keys paths : List String) : List Record :=
  match fileHeader? f with
  | none => []
  | some (language, video_id, transcript_id, p) =>
    if p ∈ paths then []
    else processSegments calcWer f.country language video_id transcript_id p
      f.segments keys

/-! ## generate_manifest.py : split assignment (create_split_assignments) -/

/-- `TEST_SPLIT_PERCENT`. -/
def TEST_SPLIT_PERCENT : ℚ := 1

/-- `VALIDATION_SPLIT_PERCENT`. -/
def VALIDATION_SPLIT_PERCENT : ℚ := 1

/-- Per-source-file information gathered while scanning the alignment files
(an entry of the `audio_info` dict): total segment duration in seconds and the
file size in MB (`None` when `stat` failed). -/
structure AudioInfo where
  path : String
  duration : ℚ
  size_mb? : Option ℚ
  deriving DecidableEq

/-- `duration_hours` derived from the accumulated seconds. -/
def durationHours (i : AudioInfo) : ℚ :=
  i.duration / 3600

/-- Add a segment duration to the entry of path `p` (dict update in place). -/
def addDur (p : String) (d : ℚ) : List AudioInfo → List AudioInfo
  | [] => []
  | i :: rest =>
    if i.path = p then { i with duration := i.duration + d } :: rest
    else i :: addDur p d rest

/-- The duration a segment contributes while gathering info: present start and
end with a positive difference. -/
def segDur (s : SegIn) : Option ℚ :=
  match s.startS?, s.endS? with
  | some st, some en => if 0 < en - st then some (en - st) else none
  | _, _ => none

/-- Info-gathering step for one alignment file: initialise the entry of a
first-seen audio path (duration 0, size from `get_file_size_mb`) and add each
segment duration. -/
def gatherFile (sizeOf? : String → Option ℚ) (info : List AudioInfo) (f : AlignFile) :
    List AudioInfo :=
  match f.audio_file? with
  | none => info
  | some p =>
    let info :=
      if (info.find? (fun i => i.path == p)).isSome then info
      else info ++ [{ path := p, duration := 0, size_mb? := sizeOf? p }]
    f.segments.foldl
      (fun acc s => match segDur s with | some d => addDur p d acc | none => acc) info

/-- The info-gathering scan over all alignment files of the country. -/
def gatherAudioInfo (sizeOf? : String → Option ℚ) (files : List AlignFile) :
    List AudioInfo :=
  files.foldl (gatherFile sizeOf?) []

/-- `sorted(audio_info.keys(), key=duration_hours, reverse=True)`: stable sort
by duration, largest first. -/
def sortInfosDesc (l : List AudioInfo) : List AudioInfo :=
  List.insertionSort (fun a b => durationHours b ≤ durationHours a) l

/-- The greedy allocation loop of `create_split_assignments`: while the
accumulated test hours are below the test quota assign to test, then likewise
for validation, remainder to train. -/
def assignLoop (minTest minVal : ℚ) : List AudioInfo → ℚ → ℚ → List (String × String)
  | [], _, _ => []
  | i :: rest, testH, valH =>
    if testH < minTest then
      (i.path, "test") :: assignLoop minTest minVal rest (testH + durationHours i) valH
    else if valH < minVal then
      (i.path, "validation") :: assignLoop minTest minVal rest testH (valH + durationHours i)
    else
      (i.path, "train") :: assignLoop minTest minVal rest testH valH

/-- The quota computation and allocation of the compute branch of
`create_split_assignments`. -/
def computeSplitAssignments (infos : List AudioInfo) : List (String × String) :=
  let total := (infos.map durationHours).sum
  let minTest := max (1 / 100) (total * TEST_SPLIT_PERCENT / 100)
  let minVal := max (1 / 100) (total * VALIDATION_SPLIT_PERCENT / 100)
  assignLoop minTest minVal (sortInfosDesc infos) 0 0

/-- One row of the `[country]_splits.csv` table.  `subset_id?` is absent as
written by the generator and filled in by the uploader. -/
structure SplitTableRow where
  source_audio_path : String
  duration_hours : ℚ
  size_mb? : Option ℚ
  split : String
  subset_id? : Option ℤ
  deriving DecidableEq

/-- The table rows written by the compute branch (one per assignment, in
assignment order, with the gathered duration and size). -/
def splitTableRows (infos : List AudioInfo) (assigns : List (String × String)) :
    List SplitTableRow :=
  assigns.map (fun a =>
    { source_audio_path := a.1,
      duration_hours := ((infos.find? (fun i => i.path == a.1)).map durationHours).getD 0,
      size_mb? := ((infos.find? (fun i => i.path == a.1)).map (·.size_mb?)).getD none,
      split := a.2,
      subset_id? := none })

/-- `create_split_assignments`: when the splits CSV exists it is loaded and
returned unchanged; otherwise assignments are computed from the alignment
files and the table is written (no table is written when no audio info was
found).  Returns the path-to-split assignment together with the stored table
after the call. -/
def create_split_assignments (sizeOf? : String → Option ℚ)
    (stored? : Option (List SplitTableRow)) (files : List AlignFile) :
    List (String × String) × Option (List SplitTableRow) :=
  match stored? with
  | some rows => (rows.map (fun r => (r.source_audio_path, r.split)), some rows)
  | none =>
    let infos := gatherAudioInfo sizeOf? files
    if infos.isEmpty then ([], none)
    else
      let assigns := computeSplitAssignments infos
      (assigns, some (splitTableRows infos assigns))

/-! ## generate_manifest.py : process_country -/

/-- The per-file loop of `process_country`.  The in-run path set always
coincides (as a set) with the source paths of the manifest built so far:
it starts as the paths loaded from the manifest and grows exactly by the paths
of the appended rows, so it is taken to be `pathsOf m` here.  Each new row
receives its split from the assignment dict, defaulting to train. -/
def runFiles (calcWer : String → String → Option ℚ) (assigns : List (String × String)) :
    List AlignFile → List Record → List Record
  | [], m => m
  | f :: rest, m =>
    let recs := (process_alignment_file calcWer f (keysOf m) (pathsOf m)).map
      (fun r => { r with split := (assigns.lookup r.source_audio_path).getD "train" })
    runFiles calcWer assigns rest (m ++ recs)

/-- The durable state of the Manifest Generator for one country: the stored
splits CSV (if written yet) and the manifest rows. -/
structure GenState where
  splitTable? : Option (List SplitTableRow)
  manifest : List Record
  deriving DecidableEq

/-- One full generator run over a country (`process_country`, without the
`--max-files` cap): create or load the split assignments, then append the new
rows derived from the alignment files. -/
def generator_run (calcWer : String → String → Option ℚ)
    (sizeOf? : String → Option ℚ) (files : List AlignFile) (st : GenState) : GenState :=
  let at' := create_split_assignments sizeOf? st.splitTable? files
  { splitTable? := at'.2, manifest := runFiles calcWer at'.1 files st.manifest }

/-! ## Lemmas about the generator -/

theorem processSegments_source (cw : String → String → Option ℚ) (c l v t p : String) :
    ∀ (segs : List SegIn) (keys : List String) (r : Record),
      r ∈ processSegments cw c l v t p segs keys → r.source_audio_path = p := by
  intro segs
  induction segs with
  | nil => intro keys r hr; simp [processSegments] at hr
  | cons s rest ih =>
    intro keys r hr
    rw [processSegments] at hr
    cases hf : segFields? s with
    | none => rw [hf] at hr; exact ih keys r hr
    | some fields =>
      obtain ⟨st, en, asr, hum, cer, si, ei⟩ := fields
      rw [hf] at hr
      simp only at hr
      by_cases hd : en - st ≤ 0
      · rw [if_pos hd] at hr; exact ih keys r hr
      · rw [if_neg hd] at hr
        by_cases hk : generate_segment_key c v st en ∈ keys
        · rw [if_pos hk] at hr; exact ih keys r hr
        · rw [if_neg hk] at hr
          rcases List.mem_cons.mp hr with h | h
          · subst h; rfl
          · exact ih _ r h

theorem processSegments_nil_mono (cw cw' : String → String → Option ℚ)
    (c l v t p : String) :
    ∀ (segs : List SegIn) (keys keys' : List String),
      processSegments cw c l v t p segs keys = [] →
      (∀ x ∈ keys, x ∈ keys') →
      processSegments cw' c l v t p segs keys' = [] := by
  intro segs
  induction segs with
  | nil => intro keys keys' _ _; rw [processSegments]
  | cons s rest ih =>
    intro keys keys' hnil hsub
    rw [processSegments] at hnil ⊢
    cases hf : segFields? s with
    | none => rw [hf] at hnil; exact ih keys keys' hnil hsub
    | some fields =>
      obtain ⟨st, en, asr, hum, cer, si, ei⟩ := fields
      rw [hf] at hnil
      simp only at hnil ⊢
      by_cases hd : en - st ≤ 0
      · rw [if_pos hd] at hnil ⊢; exact ih keys keys' hnil hsub
      · rw [if_neg hd] at hnil ⊢
        by_cases hk : generate_segment_key c v st en ∈ keys
        · rw [if_pos hk] at hnil
          rw [if_pos (hsub _ hk)]
          exact ih keys keys' hnil hsub
        · rw [if_neg hk] at hnil
          exact absurd hnil (List.cons_ne_nil _ _)

theorem fileHeader?_audio (f : AlignFile) (l v t p : String)
    (h : fileHeader? f = some (l, v, t, p)) : f.audio_file? = some p := by
  unfold fileHeader? at h
  split at h
  · rename_i hl hv ht hp
    simp only [Option.some_inj, Prod.mk.injEq] at h
    obtain ⟨rfl, rfl, rfl, rfl⟩ := h
    exact hp
  · simp at h

theorem process_alignment_file_source (cw : String → String → Option ℚ)
    (f : AlignFile) (keys paths : List String) (r : Record)
    (hr : r ∈ process_alignment_file cw f keys paths) :
    f.audio_file? = some r.source_audio_path := by
  unfold process_alignment_file at hr
  cases hh : fileHeader? f with
  | none => rw [hh] at hr; simp at hr
  | some header =>
    obtain ⟨l, v, t, p⟩ := header
    rw [hh] at hr
    simp only at hr
    by_cases hmem : p ∈ paths
    · rw [if_pos hmem] at hr; simp at hr
    · rw [if_neg hmem] at hr
      rw [processSegments_source cw f.country l v t p f.segments keys r hr]
      exact fileHeader?_audio f l v t p hh

theorem process_alignment_file_nil_mono (cw cw' : String → String → Option ℚ)
    (f : AlignFile) (keys keys' paths paths' : List String)
    (hnil : process_alignment_file cw f keys paths = [])
    (hk : ∀ x ∈ keys, x ∈ keys') (hp : ∀ x ∈ paths, x ∈ paths') :
    process_alignment_file cw' f keys' paths' = [] := by
  unfold process_alignment_file at hnil ⊢
  cases hh : fileHeader? f with
  | none => rfl
  | some header =>
    obtain ⟨l, v, t, p⟩ := header
    rw [hh] at hnil
    simp only at hnil ⊢
    by_cases hmem : p ∈ paths'
    · rw [if_pos hmem]
    · rw [if_neg hmem]
      by_cases hmem0 : p ∈ paths
      · exact absurd (hp _ hmem0) hmem
      · rw [if_neg hmem0] at hnil
        exact processSegments_nil_mono cw cw' f.country l v t p f.segments keys keys' hnil hk

theorem process_alignment_file_skip (cw cw' : String → String → Option ℚ)
    (f : AlignFile) (keys paths keys' paths' : List String) (r : Record)
    (hr : r ∈ process_alignment_file cw f keys paths)
    (hp : r.source_audio_path ∈ paths') :
    process_alignment_file cw' f keys' paths' = [] := by
  have haudio := process_alignment_file_source cw f keys paths r hr
  unfold process_alignment_file
  cases hh : fileHeader? f with
  | none => rfl
  | some header =>
    obtain ⟨l, v, t, p⟩ := header
    simp only
    have hpp : p = r.source_audio_path :=
      Option.some_inj.mp ((fileHeader?_audio f l v t p hh).symm.trans haudio)
    rw [if_pos (hpp ▸ hp)]

theorem runFiles_eq_append (cw : String → String → Option ℚ)
    (assigns : List (String × String)) :
    ∀ (files : List AlignFile) (m : List Record),
      ∃ d, runFiles cw assigns files m = m ++ d := by
  intro files
  induction files with
  | nil => intro m; exact ⟨[], (List.append_nil m).symm⟩
  | cons f rest ih =>
    intro m
    rw [runFiles]
    set recs := (process_alignment_file cw f (keysOf m) (pathsOf m)).map
      (fun r => { r with split := (assigns.lookup r.source_audio_path).getD "train" })
      with hrecs
    obtain ⟨d, hd⟩ := ih (m ++ recs)
    exact ⟨recs ++ d, by rw [hd, List.append_assoc]⟩

theorem runFiles_second (cw cw' : String → String → Option ℚ)
    (assigns assigns' : List (String × String)) :
    ∀ (files : List AlignFile) (m M : List Record),
      runFiles cw assigns files m = M →
      (∀ k ∈ keysOf m, k ∈ keysOf M) →
      (∀ p ∈ pathsOf m, p ∈ pathsOf M) →
      runFiles cw' assigns' files M = M := by
  intro files
  induction files with
  | nil => intro m M _ _ _; rfl
  | cons f rest ih =>
    intro m M hrun hk hp
    rw [runFiles] at hrun
    set g := fun (r : Record) =>
      { r with split := (assigns.lookup r.source_audio_path).getD "train" } with hg
    set base := process_alignment_file cw f (keysOf m) (pathsOf m) with hbase
    -- the state after this file in the first run is contained in M
    obtain ⟨d, hd⟩ := runFiles_eq_append cw assigns rest (m ++ base.map g)
    rw [hrun] at hd
    have hsub : ∀ r ∈ m ++ base.map g, r ∈ M := by
      intro r hr; rw [hd]; exact List.mem_append_left _ hr
    have hkM : ∀ x ∈ keysOf (m ++ base.map g), x ∈ keysOf M := by
      intro x hx
      rcases List.mem_map.mp hx with ⟨r, hrm, hrk⟩
      exact hrk ▸ List.mem_map_of_mem _ (hsub r hrm)
    have hpM : ∀ x ∈ pathsOf (m ++ base.map g), x ∈ pathsOf M := by
      intro x hx
      rcases List.mem_map.mp hx with ⟨r, hrm, hrk⟩
      exact hrk ▸ List.mem_map_of_mem _ (hsub r hrm)
    have hnil : process_alignment_file cw' f (keysOf M) (pathsOf M) = [] := by
      cases hb : base with
      | nil =>
        exact process_alignment_file_nil_mono cw cw' f (keysOf m) (keysOf M)
          (pathsOf m) (pathsOf M) (by rw [← hbase, hb]) hk hp
      | cons r rs =>
        have hrmem : r ∈ base := by rw [hb]; exact List.mem_cons_self r rs
        have hgr : g r ∈ M :=
          hsub (g r) (List.mem_append_right _ (List.mem_map_of_mem g hrmem))
        refine process_alignment_file_skip cw cw' f (keysOf m) (pathsOf m)
          (keysOf M) (pathsOf M) r (hbase ▸ hrmem) ?_
        have hgp : (g r).source_audio_path = r.source_audio_path := rfl
        exact hgp ▸ List.mem_map_of_mem _ hgr
    rw [runFiles, hnil]
    simp only [List.map_nil, List.append_nil]
    exact ih (m ++ base.map g) M hrun hkM hpM

theorem create_split_assignments_snd_stable (sz : String → Option ℚ)
    (stored? : Option (List SplitTableRow)) (files : List AlignFile) :
    (create_split_assignments sz (create_split_assignments sz stored? files).2 files).2 =
      (create_split_assignments sz stored? files).2 := by
  cases stored? with
  | some rows => rfl
  | none =>
    by_cases h : (gatherAudioInfo sz files).isEmpty
    · simp [create_split_assignments, h]
    · simp [create_split_assignments, h]

/-- C4: running the Manifest Generator a second time over unchanged alignment
input and the manifest and split table produced by the first run appends no
manifest rows and leaves the split table loaded rather than regenerated, so
the durable generator state (manifest and split table) is unchanged. -/
theorem claim_C4 (cw : String → String → Option ℚ) (sz : String → Option ℚ)
    (files : List AlignFile) (st : GenState) :
    generator_run cw sz files (generator_run cw sz files st) =
      generator_run cw sz files st := by
  have hm : ∀ (a a' : List (String × String)) (m : List Record),
      runFiles cw a' files (runFiles cw a files m) = runFiles cw a files m := by
    intro a a' m
    obtain ⟨d, hd⟩ := runFiles_eq_append cw a files m
    refine runFiles_second cw cw a a' files m _ rfl ?_ ?_
    · intro k hkm
      rw [hd]
      rcases List.mem_map.mp hkm with ⟨r, hrm, hrk⟩
      exact hrk ▸ List.mem_map_of_mem _ (List.mem_append_left _ hrm)
    · intro p hpm
      rw [hd]
      rcases List.mem_map.mp hpm with ⟨r, hrm, hrk⟩
      exact hrk ▸ List.mem_map_of_mem _ (List.mem_append_left _ hrm)
  show GenState.mk _ _ = GenState.mk _ _
  rw [GenState.mk.injEq]
  exact ⟨create_split_assignments_snd_stable sz st.splitTable? files,
    hm _ _ st.manifest⟩

/-! ## Uniqueness of manifest keys -/

theorem processSegments_keys (cw : String → String → Option ℚ) (c l v t p : String) :
    ∀ (segs : List SegIn) (keys : List String),
      ((processSegments cw c l v t p segs keys).map (·.key)).Nodup ∧
      ∀ r ∈ processSegments cw c l v t p segs keys, r.key ∉ keys := by
  intro segs
  induction segs with
  | nil =>
    intro keys
    refine ⟨by simp [processSegments], ?_⟩
    intro r hr
    simp [processSegments] at hr
  | cons s rest ih =>
    intro keys
    rw [processSegments]
    cases hf : segFields? s with
    | none => exact ih keys
    | some fields =>
      obtain ⟨st, en, asr, hum, cer, si, ei⟩ := fields
      simp only
      by_cases hd : en - st ≤ 0
      · rw [if_pos hd]; exact ih keys
      · rw [if_neg hd]
        by_cases hk2 : generate_segment_key c v st en ∈ keys
        · rw [if_pos hk2]; exact ih keys
        · rw [if_neg hk2]
          obtain ⟨ihn, ihm⟩ := ih (generate_segment_key c v st en :: keys)
          constructor
          · simp only [List.map_cons, List.nodup_cons]
            refine ⟨?_, ihn⟩
            intro hmem
            rcases List.mem_map.mp hmem with ⟨r, hrm, hrk⟩
            exact ihm r hrm (by rw [hrk]; exact List.mem_cons_self _ _)
          · intro r hr
            rcases List.mem_cons.mp hr with h | h
            · subst h; exact hk2
            · exact fun hrk2 => ihm r h (List.mem_cons_of_mem _ hrk2)

theorem process_alignment_file_keys (cw : String → String → Option ℚ)
    (f : AlignFile) (keys paths : List String) :
    ((process_alignment_file cw f keys paths).map (·.key)).Nodup ∧
    ∀ r ∈ process_alignment_file cw f keys paths, r.key ∉ keys := by
  unfold process_alignment_file
  cases hh : fileHeader? f with
  | none =>
    refine ⟨by simp, ?_⟩
    intro r hr
    simp at hr
  | some header =>
    obtain ⟨l, v, t, p⟩ := header
    simp only
    by_cases hmem : p ∈ paths
    · rw [if_pos hmem]
      refine ⟨by simp, ?_⟩
      intro r hr
      simp at hr
    · rw [if_neg hmem]
      exact processSegments_keys cw f.country l v t p f.segments keys

theorem runFiles_nodup (cw : String → String → Option ℚ)
    (assigns : List (String × String)) :
    ∀ (files : List AlignFile) (m : List Record),
      (keysOf m).Nodup → (keysOf (runFiles cw assigns files m)).Nodup := by
  intro files
  induction files with
  | nil => intro m h; exact h
  | cons f rest ih =>
    intro m h
    rw [runFiles]
    refine ih _ ?_
    set g := fun (r : Record) =>
      { r with split := (assigns.lookup r.source_audio_path).getD "train" } with hg
    set base := process_alignment_file cw f (keysOf m) (pathsOf m) with hbase
    obtain ⟨hnd, hnm⟩ := process_alignment_file_keys cw f (keysOf m) (pathsOf m)
    have hmapg : (base.map g).map (fun r : Record => r.key) = base.map (fun r => r.key) := by
      rw [List.map_map]
      rfl
    have : keysOf (m ++ base.map g) = keysOf m ++ base.map (fun r => r.key) := by
      simp only [keysOf, List.map_append, hmapg]
    rw [this, List.nodup_append]
    refine ⟨h, hbase ▸ hnd, ?_⟩
    intro x hx hx2
    rcases List.mem_map.mp hx2 with ⟨r, hrm, hrk⟩
    exact hnm r (hbase ▸ hrm) (hrk ▸ hx)

/-- C10: segment keys truncate start and end seconds to whole milliseconds
(`int(x * 1000)`), so two segments of the same country and recording whose
times truncate identically receive equal keys; and the generator never appends
a row whose key is already present, so a manifest with unique keys keeps
unique keys across any run (at most one row per country, video and
millisecond-truncated start and end). -/
theorem claim_C10 :
    (∀ (c v : String) (s1 e1 s2 e2 : ℚ),
        msTrunc s1 = msTrunc s2 →
        msTrunc e1 = msTrunc e2 →
        generate_segment_key c v s1 e1 = generate_segment_key c v s2 e2) ∧
    (∀ (cw : String → String → Option ℚ) (assigns : List (String × String))
        (files : List AlignFile) (m : List Record),
        (keysOf m).Nodup → (keysOf (runFiles cw assigns files m)).Nodup) := by
  constructor
  · intro c v s1 e1 s2 e2 h1 h2
    unfold generate_segment_key
    rw [h1, h2]
  · exact fun cw a files m h => runFiles_nodup cw a files m h

theorem claim_C10_witness :
    generate_segment_key "germany" "vid7" (⟨1, 2, by decide, by decide⟩ : ℚ) 1 =
      generate_segment_key "germany" "vid7" (⟨5001, 10000, by decide, by decide⟩ : ℚ) 1 ∧
    (keysOf (runFiles (fun _ _ => none) [] [] [])).Nodup :=
  ⟨claim_C10.1 "germany" "vid7" ⟨1, 2, by decide, by decide⟩ 1
      ⟨5001, 10000, by decide, by decide⟩ 1 (by decide) (by decide),
   claim_C10.2 (fun _ _ => none) [] [] [] (by decide)⟩

/-- C5: whenever a split table already exists, `create_split_assignments`
loads it and returns the stored assignment unchanged instead of recomputing
it, and consequently the stored table (and thus the split recorded for every
source audio path) is identical after every later generator run. -/
theorem claim_C5 (cw : String → String → Option ℚ) (sz : String → Option ℚ)
    (files : List AlignFile) (st : GenState) (t : List SplitTableRow)
    (h : st.splitTable? = some t) :
    (∀ (sz2 : String → Option ℚ) (fs : List AlignFile),
        create_split_assignments sz2 (some t) fs =
          (t.map (fun r => (r.source_audio_path, r.split)), some t)) ∧
    ∀ n : ℕ, ((generator_run cw sz files)^[n] st).splitTable? = some t := by
  refine ⟨fun sz2 fs => rfl, ?_⟩
  intro n
  induction n with
  | zero => simpa using h
  | succ k ihk =>
    rw [Function.iterate_succ_apply']
    show (create_split_assignments sz
      ((generator_run cw sz files)^[k] st).splitTable? files).2 = some t
    rw [ihk]
    rfl

theorem claim_C5_witness :
    (create_split_assignments (fun _ => none) (some []) [] = ([], some [])) ∧
    ((generator_run (fun _ _ => none) (fun _ => none) [])^[2]
      (GenState.mk (some []) [])).splitTable? = some [] :=
  ⟨(claim_C5 (fun _ _ => none) (fun _ => none) [] (GenState.mk (some []) []) []
      rfl).1 (fun _ => none) [],
   (claim_C5 (fun _ _ => none) (fun _ => none) [] (GenState.mk (some []) []) []
      rfl).2 2⟩

/-! ## The greedy duration-quota structure of the split assignment (C6) -/

/-- The number of leading list elements the greedy loop consumes before a
remaining quota `q` is exhausted: elements are taken one by one while the
remaining quota is still positive. -/
def cutQuota (q : ℚ) : List ℚ → ℕ
  | [] => 0
  | d :: rest => if 0 < q then 1 + cutQuota (q - d) rest else 0

theorem cutQuota_le_length (q : ℚ) : ∀ l : List ℚ, cutQuota q l ≤ l.length := by
  intro l
  induction l generalizing q with
  | nil => exact Nat.le_refl 0
  | cons d rest ih =>
    rw [cutQuota]
    by_cases h : 0 < q
    · rw [if_pos h]
      simpa [Nat.add_comm] using Nat.succ_le_succ (ih (q - d))
    · rw [if_neg h]
      exact Nat.zero_le _

theorem sum_take_lt_of_lt_cutQuota (q : ℚ) :
    ∀ (l : List ℚ) (m : ℕ), m < cutQuota q l → (l.take m).sum < q := by
  intro l
  induction l generalizing q with
  | nil => intro m hm; simp [cutQuota] at hm
  | cons d rest ih =>
    intro m hm
    rw [cutQuota] at hm
    by_cases h : 0 < q
    · rw [if_pos h] at hm
      cases m with
      | zero => simpa using h
      | succ m2 =>
        have hm2 : m2 < cutQuota (q - d) rest := by omega
        have := ih (q - d) m2 hm2
        simp only [List.take_succ_cons, List.sum_cons]
        linarith
    · rw [if_neg h] at hm
      exact absurd hm (Nat.not_lt_zero m)

theorem quota_le_sum_take_cutQuota (q : ℚ) :
    ∀ l : List ℚ, q ≤ (l.take (cutQuota q l)).sum ∨ cutQuota q l = l.length := by
  intro l
  induction l generalizing q with
  | nil => exact Or.inr rfl
  | cons d rest ih =>
    rw [cutQuota]
    by_cases h : 0 < q
    · rw [if_pos h]
      rcases ih (q - d) with hle | hlen
      · left
        simp only [Nat.add_comm 1, List.take_succ_cons, List.sum_cons]
        linarith
      · right
        simp [hlen, Nat.add_comm 1]
    · rw [if_neg h]
      left
      simpa using le_of_not_lt h

theorem assignLoop_train (minT minV : ℚ) :
    ∀ (l : List AudioInfo) (tH vH : ℚ), ¬ tH < minT → ¬ vH < minV →
      assignLoop minT minV l tH vH = l.map (fun i => (i.path, "train")) := by
  intro l
  induction l with
  | nil => intro tH vH _ _; rfl
  | cons i rest ih =>
    intro tH vH h1 h2
    rw [assignLoop, if_neg h1, if_neg h2, ih tH vH h1 h2, List.map_cons]

theorem assignLoop_val (minT minV : ℚ) :
    ∀ (l : List AudioInfo) (tH vH : ℚ), ¬ tH < minT →
      assignLoop minT minV l tH vH =
        ((l.take (cutQuota (minV - vH) (l.map durationHours))).map
            (fun i => (i.path, "validation")))
          ++ ((l.drop (cutQuota (minV - vH) (l.map durationHours))).map
            (fun i => (i.path, "train"))) := by
  intro l
  induction l with
  | nil => intro tH vH _; rfl
  | cons i rest ih =>
    intro tH vH h1
    rw [assignLoop, if_neg h1, List.map_cons, cutQuota]
    by_cases h2 : vH < minV
    · rw [if_pos (sub_pos.mpr h2)]
      rw [if_pos h2]
      have harg : minV - vH - durationHours i = minV - (vH + durationHours i) := by ring
      rw [ih tH (vH + durationHours i) h1, harg]
      simp [Nat.add_comm 1]
    · rw [if_neg (fun hc => h2 (sub_pos.mp hc))]
      rw [if_neg h2]
      rw [assignLoop_train minT minV rest tH vH h1 h2]
      simp

theorem assignLoop_structure (minT minV : ℚ) :
    ∀ (l : List AudioInfo) (tH vH : ℚ),
      assignLoop minT minV l tH vH =
        ((l.take (cutQuota (minT - tH) (l.map durationHours))).map
            (fun i => (i.path, "test")))
          ++ (((l.drop (cutQuota (minT - tH) (l.map durationHours))).take
              (cutQuota (minV - vH)
                ((l.drop (cutQuota (minT - tH) (l.map durationHours))).map
                  durationHours))).map (fun i => (i.path, "validation")))
          ++ (((l.drop (cutQuota (minT - tH) (l.map durationHours))).drop
              (cutQuota (minV - vH)
                ((l.drop (cutQuota (minT - tH) (l.map durationHours))).map
                  durationHours))).map (fun i => (i.path, "train"))) := by
  intro l
  induction l with
  | nil => intro tH vH; rfl
  | cons i rest ih =>
    intro tH vH
    rw [List.map_cons, cutQuota]
    by_cases h1 : tH < minT
    · rw [if_pos (sub_pos.mpr h1)]
      rw [assignLoop, if_pos h1]
      have harg : minT - tH - durationHours i = minT - (tH + durationHours i) := by ring
      rw [ih (tH + durationHours i) vH, harg]
      simp [Nat.add_comm 1]
    · rw [if_neg (fun hc => h1 (sub_pos.mp hc))]
      simp only [List.take_zero, List.drop_zero, List.map_nil, List.nil_append]
      exact assignLoop_val minT minV (i :: rest) tH vH h1

/-- The minimum test-split hours of `create_split_assignments`. -/
def minTestHours (infos : List AudioInfo) : ℚ :=
  max (1 / 100) ((infos.map durationHours).sum * TEST_SPLIT_PERCENT / 100)

/-- The minimum validation-split hours of `create_split_assignments`. -/
def minValHours (infos : List AudioInfo) : ℚ :=
  max (1 / 100) ((infos.map durationHours).sum * VALIDATION_SPLIT_PERCENT / 100)

/-- The number of sorted files the greedy loop assigns to test. -/
def greedyTestCount (infos : List AudioInfo) : ℕ :=
  cutQuota (minTestHours infos) ((sortInfosDesc infos).map durationHours)

/-- The number of sorted files the greedy loop assigns to validation, after
the test block. -/
def greedyValCount (infos : List AudioInfo) : ℕ :=
  cutQuota (minValHours infos)
    (((sortInfosDesc infos).drop (greedyTestCount infos)).map durationHours)

theorem computeSplitAssignments_eq (infos : List AudioInfo) :
    computeSplitAssignments infos =
      assignLoop (minTestHours infos) (minValHours infos) (sortInfosDesc infos) 0 0 :=
  rfl

/-- C6: the initial split assignment is the greedy duration-quota algorithm:
with the files sorted by duration, a first block goes to test until the
accumulated duration meets the test quota, the next block to validation until
its quota is met, and the remainder to train; every source file receives
exactly one split (the assignment is a permutation of the input paths, without
duplicates when the input paths are distinct), and the block lengths are the
minimal prefixes meeting each quota. -/
theorem claim_C6 (infos : List AudioInfo) (hnd : (infos.map (·.path)).Nodup) :
    computeSplitAssignments infos =
      (((sortInfosDesc infos).take (greedyTestCount infos)).map
          (fun i => (i.path, "test")))
        ++ ((((sortInfosDesc infos).drop (greedyTestCount infos)).take
            (greedyValCount infos)).map (fun i => (i.path, "validation")))
        ++ ((((sortInfosDesc infos).drop (greedyTestCount infos)).drop
            (greedyValCount infos)).map (fun i => (i.path, "train"))) ∧
    ((computeSplitAssignments infos).map Prod.fst).Perm (infos.map (·.path)) ∧
    ((computeSplitAssignments infos).map Prod.fst).Nodup ∧
    (∀ m < greedyTestCount infos,
      ((((sortInfosDesc infos).map durationHours).take m).sum < minTestHours infos)) ∧
    (minTestHours infos ≤
        (((sortInfosDesc infos).map durationHours).take (greedyTestCount infos)).sum
      ∨ greedyTestCount infos = infos.length) ∧
    (∀ m < greedyValCount infos,
      (((((sortInfosDesc infos).drop (greedyTestCount infos)).map durationHours).take
        m).sum < minValHours infos)) ∧
    (minValHours infos ≤
        ((((sortInfosDesc infos).drop (greedyTestCount infos)).map durationHours).take
          (greedyValCount infos)).sum
      ∨ greedyValCount infos = infos.length - greedyTestCount infos) := by
  have hS : (sortInfosDesc infos).Perm infos := List.perm_insertionSort _ infos
  have hSlen : (sortInfosDesc infos).length = infos.length := hS.length_eq
  have hstruct : computeSplitAssignments infos =
      (((sortInfosDesc infos).take (greedyTestCount infos)).map
          (fun i => (i.path, "test")))
        ++ ((((sortInfosDesc infos).drop (greedyTestCount infos)).take
            (greedyValCount infos)).map (fun i => (i.path, "validation")))
        ++ ((((sortInfosDesc infos).drop (greedyTestCount infos)).drop
            (greedyValCount infos)).map (fun i => (i.path, "train"))) := by
    rw [computeSplitAssignments_eq, assignLoop_structure]
    simp only [sub_zero]
    rfl
  have hone : ∀ (lab : String) (l : List AudioInfo),
      (l.map (fun i => (i.path, lab))).map Prod.fst = l.map (fun i => i.path) := by
    intro lab l
    rw [List.map_map]
    rfl
  have hmapfst : (computeSplitAssignments infos).map Prod.fst =
      (sortInfosDesc infos).map (fun i => i.path) := by
    rw [hstruct, List.map_append, List.map_append, hone, hone, hone,
      List.append_assoc, ← List.map_append, List.take_append_drop,
      ← List.map_append, List.take_append_drop]
  have hperm : ((computeSplitAssignments infos).map Prod.fst).Perm
      (infos.map (·.path)) := by
    rw [hmapfst]
    exact hS.map _
  refine ⟨hstruct, hperm, (hperm.nodup_iff).mpr hnd, ?_, ?_, ?_, ?_⟩
  · intro m hm
    exact sum_take_lt_of_lt_cutQuota _ _ m hm
  · rcases quota_le_sum_take_cutQuota (minTestHours infos)
      ((sortInfosDesc infos).map durationHours) with hle | hlen
    · exact Or.inl hle
    · refine Or.inr ?_
      rw [greedyTestCount, hlen, List.length_map, hSlen]
  · intro m hm
    exact sum_take_lt_of_lt_cutQuota _ _ m hm
  · rcases quota_le_sum_take_cutQuota (minValHours infos)
      (((sortInfosDesc infos).drop (greedyTestCount infos)).map durationHours)
      with hle | hlen
    · exact Or.inl hle
    · refine Or.inr ?_
      rw [greedyValCount, hlen, List.length_map, List.length_drop, hSlen]

/-- Concrete input for evaluating the split-assignment claim. -/
def c6Infos : List AudioInfo :=
  [{ path := "fileA", duration := 7200, size_mb? := none },
   { path := "fileB", duration := 3600, size_mb? := some 10 }]

theorem claim_C6_witness :
    computeSplitAssignments c6Infos =
      (((sortInfosDesc c6Infos).take (greedyTestCount c6Infos)).map
          (fun i => (i.path, "test")))
        ++ ((((sortInfosDesc c6Infos).drop (greedyTestCount c6Infos)).take
            (greedyValCount c6Infos)).map (fun i => (i.path, "validation")))
        ++ ((((sortInfosDesc c6Infos).drop (greedyTestCount c6Infos)).drop
            (greedyValCount c6Infos)).map (fun i => (i.path, "train"))) ∧
    ((computeSplitAssignments c6Infos).map Prod.fst).Perm (c6Infos.map (·.path)) ∧
    ((computeSplitAssignments c6Infos).map Prod.fst).Nodup ∧
    (∀ m < greedyTestCount c6Infos,
      ((((sortInfosDesc c6Infos).map durationHours).take m).sum < minTestHours c6Infos)) ∧
    (minTestHours c6Infos ≤
        (((sortInfosDesc c6Infos).map durationHours).take (greedyTestCount c6Infos)).sum
      ∨ greedyTestCount c6Infos = c6Infos.length) ∧
    (∀ m < greedyValCount c6Infos,
      (((((sortInfosDesc c6Infos).drop (greedyTestCount c6Infos)).map
        durationHours).take m).sum < minValHours c6Infos)) ∧
    (minValHours c6Infos ≤
        ((((sortInfosDesc c6Infos).drop (greedyTestCount c6Infos)).map
          durationHours).take (greedyValCount c6Infos)).sum
      ∨ greedyValCount c6Infos = c6Infos.length - greedyTestCount c6Infos) :=
  claim_C6 c6Infos (by decide)

/-! ## Manifest-write effect traces (C7)

The two manifest writers are modelled at the level of their file-system
effects.  A CSV write is two micro-steps (the file is half-written between
them); `os.replace` is a single atomic step.  A crash is a stop after any
step, i.e. an observation of the state after a take-n of the trace. -/

/-- What a path holds at some instant. -/
inductive FileContent
  | absent
  | halfWritten
  | complete (ver : ℕ)
  deriving DecidableEq

/-- One file-system micro-step. -/
inductive MicroStep
  | beginWrite (path : String)
  | finishWrite (path : String) (ver : ℕ)
  | rename (src dst : String)
  deriving DecidableEq

/-- File-system state: what every path holds. -/
def FsState : Type := String → FileContent

/-- Apply one micro-step. -/
def applyStep (st : FsState) (s : MicroStep) : FsState :=
  match s with
  | .beginWrite p => fun q => if q = p then .halfWritten else st q
  | .finishWrite p v => fun q => if q = p then .complete v else st q
  | .rename src dst => fun q => if q = dst then st src else if q = src then .absent else st q

/-- Apply a trace of micro-steps. -/
def applySteps (st : FsState) : List MicroStep → FsState
  | [] => st
  | s :: rest => applySteps (applyStep st s) rest

/-- The temporary path used by `save_manifest_atomically`
(`path.with_suffix(suffix + ".tmp." + pid)`). -/
def tmpPath (path : String) (pid : ℕ) : String :=
  path ++ ".tmp." ++ toString pid

/-- Effect trace of `save_manifest_atomically`
(create_local_webdataset_shards.py): write the CSV to the temporary path, then
`os.replace` it over the manifest. -/
def save_manifest_atomically_steps (path : String) (pid ver : ℕ) : List MicroStep :=
  [.beginWrite (tmpPath path pid), .finishWrite (tmpPath path pid) ver,
   .rename (tmpPath path pid) path]

/-- Effect trace of `utils.update_manifest_statuses` (used by the uploader for
all its status updates): `df.to_csv(csv_path)` rewrites the manifest path in
place, with no temporary file and no rename. -/
def update_manifest_statuses_steps (path : String) (ver : ℕ) : List MicroStep :=
  [.beginWrite path, .finishWrite path ver]

/-- A trace is atomic for `path` when no crash point can observe a
half-written file at `path`. -/
def neverHalfWritten (init : FsState) (steps : List MicroStep) (path : String) : Prop :=
  ∀ n : ℕ, applySteps init (steps.take n) path ≠ FileContent.halfWritten

theorem tmpPath_ne (path : String) (pid : ℕ) : tmpPath path pid ≠ path := by
  intro h
  have hlen := congrArg String.length h
  rw [tmpPath, String.length_append, String.length_append] at hlen
  have h5 : (".tmp." : String).length = 5 := rfl
  rw [h5] at hlen
  omega

/-- C7 counterexample: the status update the uploader performs through
`utils.update_manifest_statuses` writes the manifest path in place, so the
crash point after its first micro-step observes a half-written manifest — the
mutation is not an atomic replace. -/
theorem claim_C7_counterexample :
    ¬ neverHalfWritten (fun _ => FileContent.complete 0)
      (update_manifest_statuses_steps "germany_manifest.csv" 1)
      "germany_manifest.csv" := by
  intro h
  exact h 1 (by decide)

/-- C7 amended: the shard-packing flushes through `save_manifest_atomically`
are atomic — at every crash point the manifest path holds either its previous
content or the complete new file, never a half-written one — while the
uploader's status updates via `utils.update_manifest_statuses` rewrite the
manifest in place and are not atomic (see the counterexample). -/
theorem claim_C7_amended (path : String) (pid ver : ℕ) (init : FsState) (n : ℕ) :
    applySteps init ((save_manifest_atomically_steps path pid ver).take n) path
      = init path ∨
    applySteps init ((save_manifest_atomically_steps path pid ver).take n) path
      = FileContent.complete ver := by
  have htmp : ¬ (path = tmpPath path pid) := fun h => tmpPath_ne path pid h.symm
  match n with
  | 0 => exact Or.inl rfl
  | 1 =>
    left
    simp [save_manifest_atomically_steps, applySteps, applyStep, htmp]
  | 2 =>
    left
    simp [save_manifest_atomically_steps, applySteps, applyStep, htmp]
  | (k + 3) =>
    right
    simp [save_manifest_atomically_steps, applySteps, applyStep, htmp]

/-! ## create_local_webdataset_shards.py : shard packing (C2, C3) -/

/-- Status constants of create_local_webdataset_shards.py.  Note that
`STATUS_ERROR_LOCAL_TAR_CER` is declared by the script but never assigned
anywhere in it. -/
def STATUS_PENDING_LOCAL_TAR : String := "pending_local_tar"

/-- Status written when a segment was packed into the TAR. -/
def STATUS_COMPLETED_LOCAL_TAR : String := "completed_local_tar"

/-- The dedicated quality-rejection status constant (declared, never used). -/
def STATUS_ERROR_LOCAL_TAR_CER : String := "error_local_tar_cer"

/-- Status for extraction or TAR-add failures. -/
def STATUS_ERROR_LOCAL_TAR_PROCESSING : String := "error_local_tar_processing"

/-- Status for a missing source audio file. -/
def STATUS_ERROR_LOCAL_TAR_MISSING_SOURCE : String := "error_local_tar_missing_source"

/-- Status when no audio extractor is available. -/
def STATUS_ERROR_LOCAL_TAR_AUDIO_LOAD : String := "error_local_tar_audio_load"

/-- A manifest row as the shard packer sees it: manifest index (`row.name`),
key, CER (missing CER values were filled with 1.0 when the manifest was
loaded) and segment times. -/
structure ShardSeg where
  idx : ℕ
  key : String
  cer : ℚ
  start_seconds : ℚ
  end_seconds : ℚ
  deriving DecidableEq

/-- An entry added to the open TAR: the originating manifest index and the
segment key under which the metadata and audio members are stored. -/
structure TarEntry where
  idx : ℕ
  key : String
  deriving DecidableEq

/-- `start_ms` of a segment: `int(start_seconds * 1000)`, clamped below at 0. -/
def startMsOf (s : ShardSeg) : ℤ :=
  let sm := msTrunc s.start_seconds
  if sm < 0 then 0 else sm

/-- `end_ms` of a segment: `int(end_seconds * 1000)`. -/
def endMsOf (s : ShardSeg) : ℤ :=
  msTrunc s.end_seconds

/-- The parameter-building loop of `process_audio_file_segments`: a segment
with `start_ms ≥ end_ms` gets an error-processing update, the others become
extraction parameters. -/
def buildParams (segs : List ShardSeg) :
    List ShardSeg × List (ℕ × String × String) :=
  match segs with
  | [] => ([], [])
  | s :: rest =>
    let pr := buildParams rest
    if endMsOf s ≤ startMsOf s then
      (pr.1, (s.idx, STATUS_ERROR_LOCAL_TAR_PROCESSING, "Start time >= end time") :: pr.2)
    else (s :: pr.1, pr.2)

/-- `add_segment_to_tar`, with the TAR-write outcome an oracle by manifest
index: on success the metadata and audio pair is added under the segment key
and the row is marked completed, on an exception the row is marked
error-processing and nothing counts as added. -/
def add_segment_to_tar (addOk : ℕ → Bool) (s : ShardSeg) :
    List TarEntry × (ℕ × String × String) :=
  if addOk s.idx then ([⟨s.idx, s.key⟩], (s.idx, STATUS_COMPLETED_LOCAL_TAR, ""))
  else ([], (s.idx, STATUS_ERROR_LOCAL_TAR_PROCESSING, "TAR add error"))

/-- The parallel branch: extraction results (in parameter order, success an
oracle by index) are zipped against the CER-filtered rows, so the result list
is traversed against the row list exactly as `zip(results,
segments_df.iterrows())` does. -/
def parallelAdds (addOk extrOk : ℕ → Bool) :
    List ShardSeg → List ShardSeg → List TarEntry × List (ℕ × String × String)
  | p :: prest, s :: srest =>
    let er := parallelAdds addOk extrOk prest srest
    if extrOk p.idx then
      let au := add_segment_to_tar addOk s
      (au.1 ++ er.1, au.2 :: er.2)
    else (er.1, (s.idx, STATUS_ERROR_LOCAL_TAR_PROCESSING, "extract error") :: er.2)
  | _, _ => ([], [])

/-- The single-process branch: per row, re-check the time range, extract
(success an oracle by index) and add to the TAR. -/
def singleAdds (addOk extrOk : ℕ → Bool) :
    List ShardSeg → List TarEntry × List (ℕ × String × String)
  | [] => ([], [])
  | s :: rest =>
    let er := singleAdds addOk extrOk rest
    if endMsOf s ≤ startMsOf s then
      (er.1, (s.idx, STATUS_ERROR_LOCAL_TAR_PROCESSING, "Start time >= end time") :: er.2)
    else if extrOk s.idx then
      let au := add_segment_to_tar addOk s
      (au.1 ++ er.1, au.2 :: er.2)
    else (er.1, (s.idx, STATUS_ERROR_LOCAL_TAR_PROCESSING, "extract error") :: er.2)

/-- `process_audio_file_segments`: missing source marks every row; with a
configured `max_cer` the rows are filtered to `cer ≤ max_cer` before any
extraction; then the parallel or single-process branch runs (the single
branch marks every filtered row audio-load-error when no extractor is
available).  Returns the TAR entries added and the manifest updates
collected. -/
def process_audio_file_segments (sourceExists : Bool) (maxCer? : Option ℚ)
    (extractorOk : Bool) (extrOk addOk : ℕ → Bool) (numProcesses : ℕ)
    (segs : List ShardSeg) : List TarEntry × List (ℕ × String × String) :=
  if !sourceExists then
    ([], segs.map (fun s =>
      (s.idx, STATUS_ERROR_LOCAL_TAR_MISSING_SOURCE, "Source audio file not found")))
  else
    let segs2 := match maxCer? with
      | some t => segs.filter (fun s => s.cer ≤ t)
      | none => segs
    if maxCer?.isSome && segs2.isEmpty then ([], [])
    else
      let pu := buildParams segs2
      if 1 < numProcesses ∧ 1 < pu.1.length then
        let er := parallelAdds addOk extrOk pu.1 segs2
        (er.1, pu.2 ++ er.2)
      else if extractorOk then
        let er := singleAdds addOk extrOk segs2
        (er.1, pu.2 ++ er.2)
      else
        ([], pu.2 ++ segs2.map (fun s =>
          (s.idx, STATUS_ERROR_LOCAL_TAR_AUDIO_LOAD, "No suitable audio extractor found")))

theorem parallelAdds_mem (addOk extrOk : ℕ → Bool) :
    ∀ (ps segs : List ShardSeg) (e : TarEntry),
      e ∈ (parallelAdds addOk extrOk ps segs).1 →
      ∃ s ∈ segs, e.idx = s.idx ∧ e.key = s.key := by
  intro ps
  induction ps with
  | nil => intro segs e he; simp [parallelAdds] at he
  | cons p prest ih =>
    intro segs e he
    cases segs with
    | nil => simp [parallelAdds] at he
    | cons s srest =>
      rw [parallelAdds] at he
      simp only at he
      by_cases hx : extrOk p.idx
      · rw [if_pos hx] at he
        rcases List.mem_append.mp he with h1 | h2
        · unfold add_segment_to_tar at h1
          by_cases ha : addOk s.idx
          · rw [if_pos ha] at h1
            rcases List.mem_singleton.mp h1 with rfl
            exact ⟨s, List.mem_cons_self s srest, rfl, rfl⟩
          · rw [if_neg ha] at h1
            simp at h1
        · obtain ⟨s2, hs2, h⟩ := ih srest e h2
          exact ⟨s2, List.mem_cons_of_mem s hs2, h⟩
      · rw [if_neg hx] at he
        obtain ⟨s2, hs2, h⟩ := ih srest e he
        exact ⟨s2, List.mem_cons_of_mem s hs2, h⟩

theorem singleAdds_mem (addOk extrOk : ℕ → Bool) :
    ∀ (segs : List ShardSeg) (e : TarEntry),
      e ∈ (singleAdds addOk extrOk segs).1 →
      ∃ s ∈ segs, e.idx = s.idx ∧ e.key = s.key := by
  intro segs
  induction segs with
  | nil => intro e he; simp [singleAdds] at he
  | cons s rest ih =>
    intro e he
    rw [singleAdds] at he
    simp only at he
    by_cases ht : endMsOf s ≤ startMsOf s
    · rw [if_pos ht] at he
      obtain ⟨s2, hs2, h⟩ := ih e he
      exact ⟨s2, List.mem_cons_of_mem s hs2, h⟩
    · rw [if_neg ht] at he
      by_cases hx : extrOk s.idx
      · rw [if_pos hx] at he
        rcases List.mem_append.mp he with h1 | h2
        · unfold add_segment_to_tar at h1
          by_cases ha : addOk s.idx
          · rw [if_pos ha] at h1
            rcases List.mem_singleton.mp h1 with rfl
            exact ⟨s, List.mem_cons_self s rest, rfl, rfl⟩
          · rw [if_neg ha] at h1
            simp at h1
        · obtain ⟨s2, hs2, h⟩ := ih e h2
          exact ⟨s2, List.mem_cons_of_mem s hs2, h⟩
      · rw [if_neg hx] at he
        obtain ⟨s2, hs2, h⟩ := ih e he
        exact ⟨s2, List.mem_cons_of_mem s hs2, h⟩

/-- C2: with a maximum CER configured, every entry of the open TAR originates
from a segment row whose CER is at or below the threshold, and (for distinct
manifest indices) a row whose CER exceeds the threshold is never extracted
into and never added to the TAR. -/
theorem claim_C2 (sourceExists : Bool) (t : ℚ) (extractorOk : Bool)
    (extrOk addOk : ℕ → Bool) (numProcesses : ℕ) (segs : List ShardSeg) :
    (∀ e ∈ (process_audio_file_segments sourceExists (some t) extractorOk
        extrOk addOk numProcesses segs).1,
      ∃ s ∈ segs, e.idx = s.idx ∧ e.key = s.key ∧ s.cer ≤ t) ∧
    ((segs.map (·.idx)).Nodup →
      ∀ s ∈ segs, t < s.cer →
        ∀ e ∈ (process_audio_file_segments sourceExists (some t) extractorOk
            extrOk addOk numProcesses segs).1, e.idx ≠ s.idx) := by
  have hmain : ∀ e ∈ (process_audio_file_segments sourceExists (some t) extractorOk
      extrOk addOk numProcesses segs).1,
      ∃ s ∈ segs, e.idx = s.idx ∧ e.key = s.key ∧ s.cer ≤ t := by
    intro e he
    unfold process_audio_file_segments at he
    cases hsrc : sourceExists with
    | false =>
      rw [hsrc] at he
      simp at he
    | true =>
      rw [hsrc] at he
      simp only [Bool.not_true, Bool.false_eq_true, if_false] at he
      set segs2 := segs.filter (fun s => s.cer ≤ t) with hsegs2
      by_cases hemp : (Option.some t).isSome && segs2.isEmpty
      · rw [if_pos hemp] at he
        simp at he
      · rw [if_neg hemp] at he
        have hfrom : ∃ s ∈ segs2, e.idx = s.idx ∧ e.key = s.key := by
          by_cases hpar : 1 < numProcesses ∧ 1 < (buildParams segs2).1.length
          · rw [if_pos hpar] at he
            exact parallelAdds_mem addOk extrOk (buildParams segs2).1 segs2 e he
          · rw [if_neg hpar] at he
            by_cases hex : extractorOk
            · rw [if_pos hex] at he
              exact singleAdds_mem addOk extrOk segs2 e he
            · rw [if_neg hex] at he
              simp at he
        obtain ⟨s, hs, h1, h2⟩ := hfrom
        rcases List.mem_filter.mp hs with ⟨hsm, hcer⟩
        exact ⟨s, hsm, h1, h2, by simpa using hcer⟩
  refine ⟨hmain, ?_⟩
  intro hnd s hs hcer e he heq
  obtain ⟨s2, hs2, h1, _, hle⟩ := hmain e he
  have hss : s2 = s := by
    have hinj := List.inj_on_of_nodup_map hnd
    exact hinj hs2 hs (by rw [← h1, heq])
  rw [hss] at hle
  exact absurd hcer (not_lt.mpr hle)

/-! ## scripts/batch_upload.py : batch processing and upload (C3, C8, C9) -/

/-- `PUSH_RETRIES`. -/
def PUSH_RETRIES : ℕ := 3

/-- `PUSH_RETRY_DELAY` (seconds). -/
def PUSH_RETRY_DELAY : ℕ := 5

/-- `DEFAULT_RAM_PERCENTAGE_LIMIT`. -/
def DEFAULT_RAM_PERCENTAGE_LIMIT : ℚ := 70

/-- `DEFAULT_MAX_CER` (0.30). -/
def DEFAULT_MAX_CER : ℚ := ⟨3, 10, by decide, by decide⟩

/-- Abstractions of the error-message strings the uploader writes into the
manifest (the code interpolates details into f-strings; only which failure is
reported matters here). -/
inductive FailReason
  | sourceNotFound
  | zeroBytes
  | memoryErrorLoad
  | decodeError
  | loadError
  | cerTooHigh (cer maxCer : ℚ)
  | extractError
  | pushFailed
  | datasetError
  deriving DecidableEq

/-- A manifest row as the uploader sees it (key and CER; a missing CER is
`None`). -/
structure UpSeg where
  key : String
  cer? : Option ℚ
  deriving DecidableEq

/-- Outcome of `AudioSegment.from_file` on one source file. -/
inductive LoadOutcome
  | ok
  | notFound
  | zeroBytes
  | memError
  | decodeError
  | otherError
  deriving DecidableEq

/-- One source audio file of a batch, with its load outcome and its pending
segment rows. -/
structure UpFile where
  path : String
  load : LoadOutcome
  segs : List UpSeg
  deriving DecidableEq

/-- The per-segment loop of `process_audio_files_for_batch` for one loaded
file: a present CER above the threshold fails the segment with the CER
reason; otherwise the export either records the segment or fails it. -/
def processSegsUpload (maxCer : ℚ) (exportOk : String → Bool) :
    List UpSeg → List String × List (String × FailReason)
  | [] => ([], [])
  | s :: rest =>
    let rf := processSegsUpload maxCer exportOk rest
    match s.cer? with
    | some c =>
      if maxCer < c then (rf.1, (s.key, .cerTooHigh c maxCer) :: rf.2)
      else if exportOk s.key then (s.key :: rf.1, rf.2)
      else (rf.1, (s.key, .extractError) :: rf.2)
    | none =>
      if exportOk s.key then (s.key :: rf.1, rf.2)
      else (rf.1, (s.key, .extractError) :: rf.2)

/-- `process_audio_files_for_batch`: per file, a failed load fails all its
segments with the corresponding reason (continuing with the next file),
except an out-of-memory load, which fails the segments of that file and
re-raises, aborting the batch.  Returns (recorded keys, failed keys with
reasons, whether a MemoryError aborted the batch). -/
def process_audio_files_for_batch (maxCer : ℚ) (exportOk : String → Bool) :
    List UpFile → List String × List (String × FailReason) × Bool
  | [] => ([], [], false)
  | f :: rest =>
    match f.load with
    | .memError => ([], f.segs.map (fun s => (s.key, FailReason.memoryErrorLoad)), true)
    | .notFound =>
      let r := process_audio_files_for_batch maxCer exportOk rest
      (r.1, f.segs.map (fun s => (s.key, FailReason.sourceNotFound)) ++ r.2.1, r.2.2)
    | .zeroBytes =>
      let r := process_audio_files_for_batch maxCer exportOk rest
      (r.1, f.segs.map (fun s => (s.key, FailReason.zeroBytes)) ++ r.2.1, r.2.2)
    | .decodeError =>
      let r := process_audio_files_for_batch maxCer exportOk rest
      (r.1, f.segs.map (fun s => (s.key, FailReason.decodeError)) ++ r.2.1, r.2.2)
    | .otherError =>
      let r := process_audio_files_for_batch maxCer exportOk rest
      (r.1, f.segs.map (fun s => (s.key, FailReason.loadError)) ++ r.2.1, r.2.2)
    | .ok =>
      let rf := processSegsUpload maxCer exportOk f.segs
      let r := process_audio_files_for_batch maxCer exportOk rest
      (rf.1 ++ r.1, rf.2 ++ r.2.1, r.2.2)

/-- The retry loop of `push_to_hub_with_retries`: `attempt` is the index of
the next attempt, `remaining` how many attempts of `range(PUSH_RETRIES)` are
left, `sleeps` how many `PUSH_RETRY_DELAY` pauses happened so far.  Returns
(success, attempts made, sleeps made). -/
def pushLoop (outcome : ℕ → Bool) : ℕ → ℕ → ℕ → Bool × ℕ × ℕ
  | attempt, 0, sleeps => (false, attempt, sleeps)
  | attempt, remaining + 1, sleeps =>
    if outcome attempt then (true, attempt + 1, sleeps)
    else if remaining = 0 then (false, attempt + 1, sleeps)
    else pushLoop outcome (attempt + 1) remaining (sleeps + 1)

/-- `push_to_hub_with_retries`, with the outcome of each attempt an oracle. -/
def push_to_hub_with_retries (outcome : ℕ → Bool) : Bool × ℕ × ℕ :=
  pushLoop outcome 0 PUSH_RETRIES 0

/-- Whether some update with key `k` is already present
(`if key not in status_updates`). -/
def keyIn (k : String) (l : List (String × String × Option FailReason)) : Bool :=
  l.any (fun e => e.1 == k)

/-- First-match lookup of the status recorded for a key. -/
def lookupStatus (l : List (String × String × Option FailReason)) (k : String) :
    Option (String × Option FailReason) :=
  (l.find? (fun e => e.1 == k)).map (fun e => e.2)

/-- The status-update dict of `process_and_push_batch`: extraction failures
first, then push failures for keys not already failed, then "uploaded" for
pushed keys not already present. -/
def buildStatusUpdates (failed : List (String × FailReason))
    (pushFailed : List (String × FailReason)) (uploaded : List String) :
    List (String × String × Option FailReason) :=
  let su1 := failed.map (fun e => (e.1, "error", some e.2))
  let su2 := su1 ++ (pushFailed.filter (fun e => !keyIn e.1 su1)).map
    (fun e => (e.1, "error", some e.2))
  su2 ++ (uploaded.filter (fun k => !keyIn k su2)).map (fun k => (k, "uploaded", none))

/-- Result of one `process_and_push_batch` call: the boolean the function
returns (`False` halts the run), the keys pushed successfully, and the
manifest-write attempts made (updates written, and whether the write
succeeded). -/
structure BatchResult where
  success : Bool
  pushedKeys : List String
  writes : List (List (String × String × Option FailReason) × Bool)
  deriving DecidableEq

/-- All pending segments of the batch (the `segment_batch_df`). -/
def allUpSegs (files : List UpFile) : List UpSeg :=
  files.foldr (fun f acc => f.segs ++ acc) []

/-- The push part of `process_and_push_batch`: build the dataset from the
records and push it with retries.  Returns (keys pushed successfully, keys
that failed at this stage with their reason). -/
def pushPhase (pushOutcome : ℕ → Bool) (datasetOk : Bool) (records : List String) :
    List String × List (String × FailReason) :=
  if records.isEmpty then ([], [])
  else if datasetOk then
    if (push_to_hub_with_retries pushOutcome).1 then (records, [])
    else ([], records.map (fun k => (k, FailReason.pushFailed)))
  else ([], records.map (fun k => (k, FailReason.datasetError)))

/-- `process_and_push_batch`.  `datasetOk` is whether `Dataset.from_list`
succeeds, `pushOutcome` the per-attempt push outcome, `manifestWriteOk`
whether persisting the manifest succeeds.  On a MemoryError the handler runs
with the pre-try bindings still in place — the raise aborts the tuple
assignment, so `failed_keys_dict` is the empty dict it was initialised to,
the guarded `update_manifest_file` call never happens, and the function
reports success with nothing pushed (the failure dict built inside the
raising callee is discarded with it).  Otherwise the records are pushed with
retries and every key gets a status, and a failed manifest write makes the
function report failure. -/
def process_and_push_batch (maxCer : ℚ) (exportOk : String → Bool)
    (pushOutcome : ℕ → Bool) (datasetOk : Bool) (manifestWriteOk : Bool)
    (files : List UpFile) : BatchResult :=
  if (allUpSegs files).isEmpty then ⟨true, [], []⟩
  else
    let r := process_audio_files_for_batch maxCer exportOk files
    let records := r.1
    let failed := r.2.1
    if r.2.2 then
      -- MemoryError path: `if failed_keys_dict:` sees the empty pre-try dict,
      -- so no manifest write occurs and the segments stay pending
      ⟨true, [], []⟩
    else
      let pushResult := pushPhase pushOutcome datasetOk records
      let su := buildStatusUpdates failed pushResult.2 pushResult.1
      if su.isEmpty then ⟨true, pushResult.1, []⟩
      else if manifestWriteOk then ⟨true, pushResult.1, [(su, true)]⟩
      else ⟨false, pushResult.1, [(su, false)]⟩

/-! ## Lemmas about the uploader -/

theorem append_shuffle_perm {α : Type} (a b c d : List α) :
    ((a ++ b) ++ (c ++ d)).Perm ((a ++ c) ++ (b ++ d)) := by
  rw [List.append_assoc a b, List.append_assoc a c]
  refine List.Perm.append_left a ?_
  rw [← List.append_assoc b c d, ← List.append_assoc c b d]
  exact List.Perm.append_right d List.perm_append_comm

theorem processSegsUpload_perm (maxCer : ℚ) (exportOk : String → Bool) :
    ∀ segs : List UpSeg,
      ((processSegsUpload maxCer exportOk segs).1 ++
        (processSegsUpload maxCer exportOk segs).2.map Prod.fst).Perm
        (segs.map (·.key)) := by
  intro segs
  induction segs with
  | nil => simp [processSegsUpload]
  | cons s rest ih =>
    rw [processSegsUpload]
    cases s.cer? with
    | some c =>
      simp only
      by_cases hc : maxCer < c
      · rw [if_pos hc]
        simp only [List.map_cons]
        exact List.perm_middle.trans (List.Perm.cons s.key ih)
      · rw [if_neg hc]
        by_cases he : exportOk s.key
        · rw [if_pos he]
          simp only [List.map_cons, List.cons_append]
          exact List.Perm.cons s.key ih
        · rw [if_neg he]
          simp only [List.map_cons]
          exact List.perm_middle.trans (List.Perm.cons s.key ih)
    | none =>
      simp only
      by_cases he : exportOk s.key
      · rw [if_pos he]
        simp only [List.map_cons, List.cons_append]
        exact List.Perm.cons s.key ih
      · rw [if_neg he]
        simp only [List.map_cons]
        exact List.perm_middle.trans (List.Perm.cons s.key ih)

theorem batch_keys_perm (maxCer : ℚ) (exportOk : String → Bool) :
    ∀ files : List UpFile,
      (process_audio_files_for_batch maxCer exportOk files).2.2 = false →
      ((process_audio_files_for_batch maxCer exportOk files).1 ++
        (process_audio_files_for_batch maxCer exportOk files).2.1.map Prod.fst).Perm
        ((allUpSegs files).map (·.key)) := by
  intro files
  induction files with
  | nil => intro _; simp [process_audio_files_for_batch, allUpSegs]
  | cons f rest ih =>
    intro hmem
    rw [process_audio_files_for_batch] at hmem ⊢
    have hsegs : (allUpSegs (f :: rest)).map (·.key) =
        f.segs.map (·.key) ++ (allUpSegs rest).map (·.key) := by
      simp [allUpSegs]
    rw [hsegs]
    cases hl : f.load with
    | memError => rw [hl] at hmem; simp at hmem
    | ok =>
      rw [hl] at hmem
      simp only at hmem ⊢
      rw [List.map_append]
      refine (append_shuffle_perm _ _ _ _).trans ?_
      have h1 := processSegsUpload_perm maxCer exportOk f.segs
      exact List.Perm.append h1 (ih hmem)
    | notFound =>
      rw [hl] at hmem
      simp only at hmem ⊢
      rw [List.map_append, List.map_map]
      refine List.Perm.trans ?_ (List.Perm.append_left _ (ih hmem))
      rw [← List.append_assoc, ← List.append_assoc]
      exact List.Perm.append_right _ List.perm_append_comm
    | zeroBytes =>
      rw [hl] at hmem
      simp only at hmem ⊢
      rw [List.map_append, List.map_map]
      refine List.Perm.trans ?_ (List.Perm.append_left _ (ih hmem))
      rw [← List.append_assoc, ← List.append_assoc]
      exact List.Perm.append_right _ List.perm_append_comm
    | decodeError =>
      rw [hl] at hmem
      simp only at hmem ⊢
      rw [List.map_append, List.map_map]
      refine List.Perm.trans ?_ (List.Perm.append_left _ (ih hmem))
      rw [← List.append_assoc, ← List.append_assoc]
      exact List.Perm.append_right _ List.perm_append_comm
    | otherError =>
      rw [hl] at hmem
      simp only at hmem ⊢
      rw [List.map_append, List.map_map]
      refine List.Perm.trans ?_ (List.Perm.append_left _ (ih hmem))
      rw [← List.append_assoc, ← List.append_assoc]
      exact List.Perm.append_right _ List.perm_append_comm

theorem lookup_skip (l1 l2 : List (String × String × Option FailReason)) (k : String)
    (h : ∀ e ∈ l1, e.1 ≠ k) :
    lookupStatus (l1 ++ l2) k = lookupStatus l2 k := by
  unfold lookupStatus
  induction l1 with
  | nil => rfl
  | cons e es ih =>
    rw [List.cons_append, List.find?_cons_of_neg]
    · exact ih (fun e2 he2 => h e2 (List.mem_cons_of_mem e he2))
    · simp [h e (List.mem_cons_self e es)]

theorem lookupStatus_pairBlock (P : List (String × FailReason))
    (rest : List (String × String × Option FailReason)) (k : String) (v : FailReason)
    (hnd : (P.map Prod.fst).Nodup) (hkv : (k, v) ∈ P) :
    lookupStatus (P.map (fun e => (e.1, "error", some e.2)) ++ rest) k =
      some ("error", some v) := by
  induction P with
  | nil => simp at hkv
  | cons e es ih =>
    simp only [List.map_cons, List.nodup_cons] at hnd
    rcases List.mem_cons.mp hkv with h1 | h1
    · subst h1
      unfold lookupStatus
      rw [List.map_cons, List.cons_append, List.find?_cons_of_pos]
      · rfl
      · simp
    · by_cases hek : e.1 = k
      · exfalso
        have : k ∈ es.map Prod.fst := by
          rcases h1 with h1
          exact hek ▸ (hek ▸ List.mem_map_of_mem Prod.fst h1)
        exact hnd.1 (hek ▸ this)
      · unfold lookupStatus
        rw [List.map_cons, List.cons_append, List.find?_cons_of_neg]
        · exact ih hnd.2 h1
        · simp [hek]

theorem lookupStatus_keyBlock (U : List String) (k st : String)
    (hnd : U.Nodup) (hk : k ∈ U) :
    lookupStatus (U.map (fun k2 => (k2, st, none))) k = some (st, none) := by
  induction U with
  | nil => simp at hk
  | cons u us ih =>
    rcases List.nodup_cons.mp hnd with ⟨hnu, hnus⟩
    rcases List.mem_cons.mp hk with h1 | h1
    · subst h1
      unfold lookupStatus
      rw [List.map_cons, List.find?_cons_of_pos]
      · rfl
      · simp
    · by_cases huk : u = k
      · exact absurd (huk ▸ h1) hnu
      · unfold lookupStatus
        rw [List.map_cons, List.find?_cons_of_neg]
        · exact ih hnus h1
        · simp [huk]

theorem push_retries_spec (outcome : ℕ → Bool) :
    (push_to_hub_with_retries outcome).2.1 ≤ PUSH_RETRIES ∧
    ((push_to_hub_with_retries outcome).1 = true ↔
      ∃ i, i < PUSH_RETRIES ∧ outcome i = true) ∧
    (push_to_hub_with_retries outcome).2.2 + 1 ≤ PUSH_RETRIES := by
  by_cases h0 : outcome 0 = true
  · refine ⟨?_, ⟨fun _ => ⟨0, by decide, h0⟩, fun _ => ?_⟩, ?_⟩ <;>
      simp [push_to_hub_with_retries, pushLoop, PUSH_RETRIES, h0]
  · by_cases h1 : outcome 1 = true
    · refine ⟨?_, ⟨fun _ => ⟨1, by decide, h1⟩, fun _ => ?_⟩, ?_⟩ <;>
        simp [push_to_hub_with_retries, pushLoop, PUSH_RETRIES, h0, h1]
    · by_cases h2 : outcome 2 = true
      · refine ⟨?_, ⟨fun _ => ⟨2, by decide, h2⟩, fun _ => ?_⟩, ?_⟩ <;>
          simp [push_to_hub_with_retries, pushLoop, PUSH_RETRIES, h0, h1, h2]
      · refine ⟨?_, ⟨fun hs => ?_, fun he => ?_⟩, ?_⟩
        · simp [push_to_hub_with_retries, pushLoop, PUSH_RETRIES, h0, h1, h2]
        · exact absurd hs (by
            simp [push_to_hub_with_retries, pushLoop, PUSH_RETRIES, h0, h1, h2])
        · obtain ⟨i, hi, hoi⟩ := he
          have hi3 : i < 3 := hi
          interval_cases i
          · exact absurd hoi h0
          · exact absurd hoi h1
          · exact absurd hoi h2
        · simp [push_to_hub_with_retries, pushLoop, PUSH_RETRIES, h0, h1, h2]

/-- C8: pushes go through the bounded retry loop (at most `PUSH_RETRIES = 3`
attempts, success exactly when some attempt within the bound succeeds, at
most `PUSH_RETRIES - 1` inter-retry delays of `PUSH_RETRY_DELAY` seconds);
and in the manifest update written by a batch, every key that failed
extraction is marked "error" with its own reason regardless of the push
outcome, while every successfully extracted key is marked "uploaded" when the
push succeeded and "error" with the upload-failure reason when all retries
were exhausted. -/
theorem claim_C8 (maxCer : ℚ) (exportOk : String → Bool) (pushOutcome : ℕ → Bool)
    (manifestWriteOk : Bool) (files : List UpFile)
    (hnd : ((allUpSegs files).map (·.key)).Nodup)
    (hmem : (process_audio_files_for_batch maxCer exportOk files).2.2 = false) :
    ((push_to_hub_with_retries pushOutcome).2.1 ≤ PUSH_RETRIES ∧
      ((push_to_hub_with_retries pushOutcome).1 = true ↔
        ∃ i, i < PUSH_RETRIES ∧ pushOutcome i = true) ∧
      (push_to_hub_with_retries pushOutcome).2.2 + 1 ≤ PUSH_RETRIES) ∧
    ∀ su ok2,
      (su, ok2) ∈ (process_and_push_batch maxCer exportOk pushOutcome true
        manifestWriteOk files).writes →
      (∀ k v, (k, v) ∈ (process_audio_files_for_batch maxCer exportOk files).2.1 →
        lookupStatus su k = some ("error", some v)) ∧
      ((push_to_hub_with_retries pushOutcome).1 = true →
        ∀ k ∈ (process_audio_files_for_batch maxCer exportOk files).1,
          lookupStatus su k = some ("uploaded", none)) ∧
      ((push_to_hub_with_retries pushOutcome).1 = false →
        ∀ k ∈ (process_audio_files_for_batch maxCer exportOk files).1,
          lookupStatus su k = some ("error", some FailReason.pushFailed)) := by
  refine ⟨push_retries_spec pushOutcome, ?_⟩
  set R := (process_audio_files_for_batch maxCer exportOk files).1 with hR
  set F := (process_audio_files_for_batch maxCer exportOk files).2.1 with hF
  have hperm := batch_keys_perm maxCer exportOk files hmem
  have hndRF : (R ++ F.map Prod.fst).Nodup := (hperm.nodup_iff).mpr hnd
  rcases List.nodup_append.mp hndRF with ⟨hRnd, hFmnd, hdisj⟩
  have hskip1 : ∀ k ∈ R, ∀ e ∈ F.map (fun e => (e.1, "error", some e.2)), e.1 ≠ k := by
    intro k hk e hemem
    rcases List.mem_map.mp hemem with ⟨p, hp, rfl⟩
    intro hc
    exact hdisj hk (hc ▸ List.mem_map_of_mem Prod.fst hp)
  have hkeyIn1 : ∀ k ∈ R, keyIn k (F.map (fun e => (e.1, "error", some e.2))) = false := by
    intro k hk
    rw [keyIn, List.any_eq_false]
    intro e hemem
    simp only [beq_iff_eq]
    exact hskip1 k hk e hemem
  intro su ok2 hw
  have hsueq : su = buildStatusUpdates F (pushPhase pushOutcome true R).2
      (pushPhase pushOutcome true R).1 := by
    unfold process_and_push_batch at hw
    by_cases hempty : (allUpSegs files).isEmpty
    · rw [if_pos hempty] at hw
      simp at hw
    · rw [if_neg hempty] at hw
      simp only [← hR, ← hF, hmem, Bool.false_eq_true, if_false] at hw
      by_cases hsuemp : (buildStatusUpdates F (pushPhase pushOutcome true R).2
          (pushPhase pushOutcome true R).1).isEmpty
      · rw [if_pos hsuemp] at hw
        simp at hw
      · rw [if_neg hsuemp] at hw
        by_cases hwok : manifestWriteOk
        · rw [if_pos hwok] at hw
          simp at hw
          exact hw.1
        · rw [if_neg hwok] at hw
          simp at hw
          exact hw.1
  subst hsueq
  refine ⟨?_, ?_, ?_⟩
  · -- extraction failures keep their own reason
    intro k v hkv
    rw [buildStatusUpdates]
    rw [List.append_assoc]
    exact lookupStatus_pairBlock F _ k v hFmnd hkv
  · -- push success: every extracted key is marked uploaded
    intro hpush k hk
    by_cases hRemp : R.isEmpty
    · rw [List.isEmpty_iff] at hRemp
      rw [hRemp] at hk
      simp at hk
    · have hPval : pushPhase pushOutcome true R = (R, []) := by
        rw [pushPhase, if_neg hRemp, if_pos rfl, if_pos hpush]
      rw [hPval, buildStatusUpdates]
      simp only [List.filter_nil, List.map_nil, List.append_nil]
      rw [lookup_skip _ _ k (hskip1 k hk)]
      refine lookupStatus_keyBlock _ k "uploaded" (hRnd.filter _) ?_
      rw [List.mem_filter]
      refine ⟨hk, ?_⟩
      simp [hkeyIn1 k hk]
  · -- push failure after retries: every extracted key is marked error
    intro hpush k hk
    by_cases hRemp : R.isEmpty
    · rw [List.isEmpty_iff] at hRemp
      rw [hRemp] at hk
      simp at hk
    · have hPval : pushPhase pushOutcome true R = (([] : List String),
          R.map (fun k => (k, FailReason.pushFailed))) := by
        rw [pushPhase, if_neg hRemp, if_pos rfl, if_neg (by simp [hpush])]
      rw [hPval, buildStatusUpdates]
      simp only [List.filter_nil, List.map_nil, List.append_nil]
      rw [lookup_skip _ _ k (hskip1 k hk)]
      have hsub : ((R.map (fun k => (k, FailReason.pushFailed))).filter
          (fun e => !keyIn e.1 (F.map (fun e => (e.1, "error", some e.2))))).Sublist
          (R.map (fun k => (k, FailReason.pushFailed))) := List.filter_sublist _
      have hndP : (((R.map (fun k => (k, FailReason.pushFailed))).filter
          (fun e => !keyIn e.1 (F.map (fun e => (e.1, "error", some e.2))))).map
          Prod.fst).Nodup := by
        refine List.Nodup.sublist (List.Sublist.map Prod.fst hsub) ?_
        have h2 : ∀ L : List String,
            L.map (Prod.fst ∘ fun k => (k, FailReason.pushFailed)) = L := by
          intro L
          induction L with
          | nil => rfl
          | cons a as iha => rw [List.map_cons, iha]; rfl
        rw [List.map_map, h2 R]
        exact hRnd
      have hres := lookupStatus_pairBlock
        ((R.map (fun k => (k, FailReason.pushFailed))).filter
          (fun e => !keyIn e.1 (F.map (fun e => (e.1, "error", some e.2))))) [] k
        FailReason.pushFailed hndP (by
          rw [List.mem_filter]
          refine ⟨List.mem_map_of_mem _ hk, ?_⟩
          simp [hkeyIn1 k hk])
      simpa using hres

/-- Concrete batch for evaluating the uploader claims: one loaded file with a
low-CER and a high-CER pending segment. -/
def c8Files : List UpFile :=
  [{ path := "f1", load := .ok,
     segs := [{ key := "ka", cer? := some ⟨1, 10, by decide, by decide⟩ },
              { key := "kb", cer? := some ⟨9, 20, by decide, by decide⟩ }] }]

/-- The status updates the uploader writes for `c8Files` with every push
attempt succeeding. -/
def c8Su : List (String × String × Option FailReason) :=
  buildStatusUpdates
    (process_audio_files_for_batch DEFAULT_MAX_CER (fun _ => true) c8Files).2.1
    (pushPhase (fun _ => true) true
      (process_audio_files_for_batch DEFAULT_MAX_CER (fun _ => true) c8Files).1).2
    (pushPhase (fun _ => true) true
      (process_audio_files_for_batch DEFAULT_MAX_CER (fun _ => true) c8Files).1).1

theorem claim_C8_witness :
    (∃ i, i < PUSH_RETRIES ∧ (fun _ : ℕ => true) i = true) ∧
    lookupStatus c8Su "kb" = some ("error",
      some (FailReason.cerTooHigh ⟨9, 20, by decide, by decide⟩ DEFAULT_MAX_CER)) ∧
    lookupStatus c8Su "ka" = some ("uploaded", none) := by
  have h := claim_C8 DEFAULT_MAX_CER (fun _ => true) (fun _ => true) true c8Files
    (by decide) (by decide)
  refine ⟨(h.1.2.1).mp (by decide), ?_, ?_⟩
  · exact (h.2 c8Su true (by decide)).1 "kb"
      (FailReason.cerTooHigh ⟨9, 20, by decide, by decide⟩ DEFAULT_MAX_CER) (by decide)
  · exact (h.2 c8Su true (by decide)).2.1 (by decide) "ka" (by decide)

/-- The high-CER pending segment of the C3 scenario (CER 0.45 against
`max_cer` 0.30). -/
def c3Seg : ShardSeg :=
  { idx := 5, key := "k45", cer := ⟨9, 20, by decide, by decide⟩,
    start_seconds := 0, end_seconds := 1 }

/-- C3 (code bug): for a pending segment whose CER exceeds the configured
threshold, the shard packer records no status at all (the segment is silently
filtered, its row left pending, and the dedicated constant
`STATUS_ERROR_LOCAL_TAR_CER` — declared precisely for this case — is never
written), while the uploader records the generic "error" status with a
CER-explaining message rather than any dedicated quality-rejection status. -/
theorem claim_C3 :
    process_audio_file_segments true (some DEFAULT_MAX_CER) true
      (fun _ => true) (fun _ => true) 1 [c3Seg] = ([], []) ∧
    DEFAULT_MAX_CER < c3Seg.cer ∧
    (∀ u ∈ (process_audio_file_segments true (some DEFAULT_MAX_CER) true
        (fun _ => true) (fun _ => true) 1 [c3Seg]).2,
      u.2.1 ≠ STATUS_ERROR_LOCAL_TAR_CER) ∧
    lookupStatus
      (buildStatusUpdates
        (process_audio_files_for_batch DEFAULT_MAX_CER (fun _ => true)
          [{ path := "p", load := .ok,
             segs := [{ key := "k45", cer? := some ⟨9, 20, by decide, by decide⟩ }] }]).2.1
        [] []) "k45"
      = some ("error", some (FailReason.cerTooHigh ⟨9, 20, by decide, by decide⟩
          DEFAULT_MAX_CER)) ∧
    "error" ≠ STATUS_ERROR_LOCAL_TAR_CER := by
  refine ⟨by decide, by decide, ?_, by decide, by decide⟩
  intro u hu
  have : (process_audio_file_segments true (some DEFAULT_MAX_CER) true
      (fun _ => true) (fun _ => true) 1 [c3Seg]).2 = [] := by decide
  rw [this] at hu
  simp at hu

/-- Concrete segments for the quality-gate claim: one below and one above the
0.30 threshold. -/
def c2Segs : List ShardSeg :=
  [{ idx := 0, key := "k0", cer := ⟨1, 10, by decide, by decide⟩,
     start_seconds := 0, end_seconds := 1 },
   { idx := 1, key := "k1", cer := ⟨9, 20, by decide, by decide⟩,
     start_seconds := 1, end_seconds := 2 }]

theorem claim_C2_witness :
    (∃ s ∈ c2Segs, (TarEntry.mk 0 "k0").idx = s.idx ∧
      (TarEntry.mk 0 "k0").key = s.key ∧ s.cer ≤ DEFAULT_MAX_CER) ∧
    (TarEntry.mk 0 "k0").idx ≠ (1 : ℕ) := by
  have h := claim_C2 true DEFAULT_MAX_CER true (fun _ => true) (fun _ => true) 1 c2Segs
  refine ⟨h.1 ⟨0, "k0"⟩ (by decide), ?_⟩
  exact h.2 (by decide)
    { idx := 1, key := "k1", cer := ⟨9, 20, by decide, by decide⟩,
      start_seconds := 1, end_seconds := 2 } (by decide) (by decide) ⟨0, "k0"⟩ (by decide)

/-! ## scripts/batch_upload.py : train subset construction (C1) -/

/-- One not-yet-assigned train row of the splits CSV as the uploader reads it
(`size_mb`, with a missing size entering as its `pd.notna` fallback 0.0). -/
structure TrainFileRow where
  source_audio_path : String
  size_mb : ℚ
  deriving DecidableEq

/-- Outcome of the pre-flight `AudioSegment.from_file` while building a
subset. -/
inductive PreloadResult
  | ok
  | memError
  | otherError
  deriving DecidableEq

/-- The relevant arguments of `process_train_subsets`. -/
structure TrainArgs where
  ram_percentage_limit : ℚ
  max_split_size_gb? : Option ℚ
  deriving DecidableEq

/-- The batch limit computed at the start of `process_train_subsets`:
the configured percentage of the available RAM, capped by
`--max-split-size-gb` when given. -/
def effectiveBatchLimit (availableRamMb : ℚ) (args : TrainArgs) : ℚ :=
  let ramLimitMb := availableRamMb * (args.ram_percentage_limit / 100)
  match args.max_split_size_gb? with
  | some g => min ramLimitMb (g * 1024)
  | none => ramLimitMb

/-- `pending.sort_values(by="size_mb", ascending=True)`. -/
def sortBySizeAsc (l : List TrainFileRow) : List TrainFileRow :=
  List.insertionSort (fun a b => a.size_mb ≤ b.size_mb) l

/-- Cumulative recorded size of a batch. -/
def sumSizes (b : List TrainFileRow) : ℚ :=
  (b.map (·.size_mb)).sum

/-- The candidate-selection loop of one batch-build attempt: files are
considered in the given (ascending-size) order; a file whose size would keep
the cumulative size within the limit is pre-loaded — on success it is
admitted, on a MemoryError it is skipped for this attempt only, on any other
error its rows are marked and it is excluded; the first file that does not
fit stops the scan.  Returns (batch, memory-skipped paths, error-marked
paths). -/
def selectBatch (limit : ℚ) (pre : String → PreloadResult) :
    List TrainFileRow → ℚ → List TrainFileRow × List String × List String
  | [], _ => ([], [], [])
  | f :: rest, acc =>
    if acc + f.size_mb ≤ limit then
      match pre f.source_audio_path with
      | .ok =>
        let r := selectBatch limit pre rest (acc + f.size_mb)
        (f :: r.1, r.2.1, r.2.2)
      | .memError =>
        let r := selectBatch limit pre rest acc
        (r.1, f.source_audio_path :: r.2.1, r.2.2)
      | .otherError =>
        let r := selectBatch limit pre rest acc
        (r.1, r.2.1, f.source_audio_path :: r.2.2)
    else ([], [], [])

/-- The subset loop of `process_train_subsets`, as a fuelled recursion over
attempts `k = 0, 1, …`: each attempt sorts the pending rows by size and
selects a batch under the fixed limit; an empty selection ends the loop (the
inner permanent-skip branch is translated literally from the source and is
unreachable, since it requires membership in an empty skip set); a non-empty
batch is emitted and its files (and error-marked files) leave the pending
set.  Returns the list of batches in attempt order. -/
def trainLoop (limit : ℚ) (pre : ℕ → String → PreloadResult) :
    ℕ → ℕ → List TrainFileRow → List (List TrainFileRow)
  | 0, _, _ => []
  | fuel + 1, k, pending =>
    if pending.isEmpty then []
    else
      let sorted := sortBySizeAsc pending
      let sel := selectBatch limit (pre k) sorted 0
      if sel.1.isEmpty then
        if !pending.isEmpty && sel.2.1.isEmpty then
          if pending.length == 1 &&
              (match sorted.head? with
               | some f0 => sel.2.1.contains f0.source_audio_path
               | none => false) then
            trainLoop limit pre fuel (k + 1)
              (pending.filter (fun f =>
                match sorted.head? with
                | some f0 => f.source_audio_path != f0.source_audio_path
                | none => true))
          else []
        else []
      else
        sel.1 :: trainLoop limit pre fuel (k + 1)
          (pending.filter (fun f =>
            !(sel.1.map (·.source_audio_path)).contains f.source_audio_path &&
            !sel.2.2.contains f.source_audio_path))

/-- `process_train_subsets`, batch-construction aspect: the available RAM is
sampled once, at the start of the call (`psutil.virtual_memory().available`),
before the first batch-build attempt; every attempt then uses the same
limit. -/
def process_train_subsets (mem : ℕ → ℚ) (args : TrainArgs)
    (pre : ℕ → String → PreloadResult) (pending : List TrainFileRow) :
    List (List TrainFileRow) :=
  trainLoop (effectiveBatchLimit (mem 0) args) pre (pending.length + 1) 0 pending

theorem selectBatch_sum (limit : ℚ) (pre : String → PreloadResult) :
    ∀ (l : List TrainFileRow) (acc : ℚ),
      (selectBatch limit pre l acc).1 = [] ∨
      acc + sumSizes (selectBatch limit pre l acc).1 ≤ limit := by
  intro l
  induction l with
  | nil => intro acc; exact Or.inl rfl
  | cons f rest ih =>
    intro acc
    rw [selectBatch]
    by_cases hfit : acc + f.size_mb ≤ limit
    · rw [if_pos hfit]
      cases hpre : pre f.source_audio_path with
      | ok =>
        simp only
        rcases ih (acc + f.size_mb) with hnil | hle
        · right
          rw [hnil]
          simp only [sumSizes, List.map_cons, List.map_nil, List.sum_cons, List.sum_nil]
          linarith
        · right
          simp only [sumSizes, List.map_cons, List.sum_cons] at hle ⊢
          linarith
      | memError => simpa only using ih acc
      | otherError => simpa only using ih acc
    · rw [if_neg hfit]
      exact Or.inl rfl

theorem selectBatch_sublist (limit : ℚ) (pre : String → PreloadResult) :
    ∀ (l : List TrainFileRow) (acc : ℚ),
      (selectBatch limit pre l acc).1.Sublist l := by
  intro l
  induction l with
  | nil => intro acc; exact List.Sublist.refl []
  | cons f rest ih =>
    intro acc
    rw [selectBatch]
    by_cases hfit : acc + f.size_mb ≤ limit
    · rw [if_pos hfit]
      cases hpre : pre f.source_audio_path with
      | ok => exact List.Sublist.cons₂ f (ih (acc + f.size_mb))
      | memError => exact List.Sublist.cons f (ih acc)
      | otherError => exact List.Sublist.cons f (ih acc)
    · rw [if_neg hfit]
      exact List.nil_sublist _

instance : IsTotal TrainFileRow (fun a b => a.size_mb ≤ b.size_mb) :=
  ⟨fun a b => le_total a.size_mb b.size_mb⟩

instance : IsTrans TrainFileRow (fun a b => a.size_mb ≤ b.size_mb) :=
  ⟨fun _ _ _ h1 h2 => le_trans h1 h2⟩

theorem trainLoop_bound (limit : ℚ) (pre : ℕ → String → PreloadResult)
    (hL : 0 ≤ limit) :
    ∀ (fuel k : ℕ) (pending : List TrainFileRow) (b : List TrainFileRow),
      b ∈ trainLoop limit pre fuel k pending →
      sumSizes b ≤ limit ∧ b.Sorted (fun x y => x.size_mb ≤ y.size_mb) := by
  intro fuel
  induction fuel with
  | zero => intro k pending b hb; simp [trainLoop] at hb
  | succ n ih =>
    intro k pending b hb
    rw [trainLoop] at hb
    by_cases hpe : pending.isEmpty
    · rw [if_pos hpe] at hb
      simp at hb
    · rw [if_neg hpe] at hb
      simp only at hb
      by_cases hse : (selectBatch limit (pre k) (sortBySizeAsc pending) 0).1.isEmpty
      · rw [if_pos hse] at hb
        by_cases h2 : (!pending.isEmpty &&
            (selectBatch limit (pre k) (sortBySizeAsc pending) 0).2.1.isEmpty) = true
        · rw [if_pos h2] at hb
          by_cases h3 : (pending.length == 1 &&
              (match (sortBySizeAsc pending).head? with
               | some f0 => (selectBatch limit (pre k)
                   (sortBySizeAsc pending) 0).2.1.contains f0.source_audio_path
               | none => false)) = true
          · rw [if_pos h3] at hb
            exact ih (k + 1) _ b hb
          · rw [if_neg h3] at hb
            simp at hb
        · rw [if_neg h2] at hb
          simp at hb
      · rw [if_neg hse] at hb
        rcases List.mem_cons.mp hb with rfl | hb2
        · constructor
          · rcases selectBatch_sum limit (pre k) (sortBySizeAsc pending) 0 with hnil | hle
            · rw [hnil]
              simpa [sumSizes] using hL
            · linarith
          · refine List.Pairwise.sublist (selectBatch_sublist limit (pre k) _ 0) ?_
            exact List.sorted_insertionSort _ pending
        · exact ih (k + 1) _ b hb2

/-- The c1 scenario: available memory reads 1000 MB at the start of train
processing and 100 MB at the time of the second batch-build attempt. -/
def c1Mem : ℕ → ℚ := fun k => if k = 0 then 1000 else 100

/-- The c1 arguments: 50 percent of available RAM, no max split size. -/
def c1Args : TrainArgs :=
  { ram_percentage_limit := 50, max_split_size_gb? := none }

/-- The c1 pending train files: 300 MB and 400 MB. -/
def c1Pending : List TrainFileRow :=
  [{ source_audio_path := "a", size_mb := 300 },
   { source_audio_path := "b", size_mb := 400 }]

/-- C1 counterexample: the memory budget is sampled once per run, not once
per batch-build attempt.  With the run-start sample at 1000 MB the limit is
500 MB for every attempt; the first attempt admits only the 300 MB file, the
second admits the 400 MB file — which exceeds the 50 MB budget that a fresh
sample (100 MB available) at the start of that attempt would have allowed.
So the claim that every batch respects the budget sampled at the start of its
own attempt is false. -/
theorem claim_C1_counterexample :
    ¬ ∀ (k : ℕ) (b : List TrainFileRow),
        (process_train_subsets c1Mem c1Args (fun _ _ => .ok) c1Pending).get? k
          = some b →
        sumSizes b ≤ c1Mem k * (c1Args.ram_percentage_limit / 100) := by
  intro h
  have hL : effectiveBatchLimit (c1Mem 0) c1Args = 500 := by
    norm_num [effectiveBatchLimit, c1Mem, c1Args]
  have hloop : process_train_subsets c1Mem c1Args (fun _ _ => .ok) c1Pending =
      [[{ source_audio_path := "a", size_mb := 300 }],
       [{ source_audio_path := "b", size_mb := 400 }]] := by
    show trainLoop (effectiveBatchLimit (c1Mem 0) c1Args) (fun _ _ => .ok)
      (c1Pending.length + 1) 0 c1Pending = _
    rw [hL]
    have hd1 : (decide (("b" : String) = "a")) = false := by decide
    have hd2 : (decide (("a" : String) = "a")) = true := by decide
    have hd3 : (decide (("a" : String) = "b")) = false := by decide
    have hd4 : (decide (("b" : String) = "b")) = true := by decide
    norm_num [c1Pending, trainLoop, selectBatch, sortBySizeAsc,
      List.insertionSort, List.orderedInsert, List.filter, hd1, hd2, hd3, hd4]
  have hb := h 1 [{ source_audio_path := "b", size_mb := 400 }]
    (by rw [hloop]; rfl)
  rw [show sumSizes [{ source_audio_path := "b", size_mb := 400 }] = 400 by
    norm_num [sumSizes]] at hb
  norm_num [c1Mem, c1Args] at hb

/-- C1 amended: the effective limit is computed once, from the memory sample
taken at the start of train-subset processing (before the first attempt),
together with the configured maximum split size; candidate files are
considered smallest-recorded-size first and admitted only while the
cumulative size stays within that limit, so every emitted batch is
ascending-sorted by size and its cumulative recorded size exceeds neither the
run-start memory budget nor the configured maximum. -/
theorem claim_C1_amended (mem : ℕ → ℚ) (args : TrainArgs)
    (pre : ℕ → String → PreloadResult) (pending : List TrainFileRow)
    (b : List TrainFileRow)
    (hL : 0 ≤ effectiveBatchLimit (mem 0) args)
    (hb : b ∈ process_train_subsets mem args pre pending) :
    sumSizes b ≤ mem 0 * (args.ram_percentage_limit / 100) ∧
    (∀ g, args.max_split_size_gb? = some g → sumSizes b ≤ g * 1024) ∧
    b.Sorted (fun x y => x.size_mb ≤ y.size_mb) := by
  have hbd := trainLoop_bound (effectiveBatchLimit (mem 0) args) pre hL
    (pending.length + 1) 0 pending b hb
  have hram : effectiveBatchLimit (mem 0) args ≤
      mem 0 * (args.ram_percentage_limit / 100) := by
    rw [effectiveBatchLimit]
    cases args.max_split_size_gb? with
    | none => exact le_refl _
    | some g => exact min_le_left _ _
  refine ⟨le_trans hbd.1 hram, ?_, hbd.2⟩
  intro g hg
  have hmax : effectiveBatchLimit (mem 0) args ≤ g * 1024 := by
    rw [effectiveBatchLimit, hg]
    exact min_le_right _ _
  exact le_trans hbd.1 hmax

theorem claim_C1_amended_witness :
    sumSizes [{ source_audio_path := "a", size_mb := 0 }] ≤
      (0 : ℚ) * ((50 : ℚ) / 100) ∧
    (∀ g, (none : Option ℚ) = some g →
      sumSizes [{ source_audio_path := "a", size_mb := 0 }] ≤ g * 1024) ∧
    ([{ source_audio_path := "a", size_mb := 0 }] : List TrainFileRow).Sorted
      (fun x y => x.size_mb ≤ y.size_mb) :=
  claim_C1_amended (fun _ => 0) ⟨50, none⟩ (fun _ _ => .ok)
    [{ source_audio_path := "a", size_mb := 0 }]
    [{ source_audio_path := "a", size_mb := 0 }]
    (by simp [effectiveBatchLimit])
    (by simp [process_train_subsets, effectiveBatchLimit, trainLoop, selectBatch,
      sortBySizeAsc, List.insertionSort, List.orderedInsert, List.filter])

/-! ## scripts/batch_upload.py : manifest-write outcomes on the error paths (C9) -/

/-- The pre-flight candidate scan of `process_train_subsets` together with its
manifest effects.  Selection is as in `selectBatch`; additionally, the
`except Exception` handler looks up the manifest keys of the failing file
(`segKeysOf`), builds `error` status updates, and — when they are nonempty —
calls `update_manifest_file`, discarding its boolean result
(`if status_updates: update_manifest_file(manifest_path, status_updates)`)
before `continue`-ing the scan.  Returns the `selectBatch` triple paired with
the list of manifest writes `(updates, write outcome)` in scan order. -/
def selectBatchWithWrites (limit : ℚ) (pre : String → PreloadResult)
    (segKeysOf : String → List String) (manifestWriteOk : Bool) :
    List TrainFileRow → ℚ →
    (List TrainFileRow × List String × List String) ×
      List (List (String × String × Option FailReason) × Bool)
  | [], _ => (([], [], []), [])
  | f :: rest, acc =>
    if acc + f.size_mb ≤ limit then
      match pre f.source_audio_path with
      | .ok =>
        let r := selectBatchWithWrites limit pre segKeysOf manifestWriteOk rest
          (acc + f.size_mb)
        ((f :: r.1.1, r.1.2.1, r.1.2.2), r.2)
      | .memError =>
        let r := selectBatchWithWrites limit pre segKeysOf manifestWriteOk rest acc
        ((r.1.1, f.source_audio_path :: r.1.2.1, r.1.2.2), r.2)
      | .otherError =>
        let r := selectBatchWithWrites limit pre segKeysOf manifestWriteOk rest acc
        let updates := (segKeysOf f.source_audio_path).map
          (fun k => (k, "error", some FailReason.loadError))
        ((r.1.1, r.1.2.1, f.source_audio_path :: r.1.2.2),
         if updates.isEmpty then r.2 else (updates, manifestWriteOk) :: r.2)
    else (([], [], []), [])

/-- The write outcome never influences the pre-flight selection: the
selection component of `selectBatchWithWrites` equals `selectBatch`
regardless of whether the manifest writes succeed. -/
theorem selectBatchWithWrites_fst (limit : ℚ) (pre : String → PreloadResult)
    (segKeysOf : String → List String) (w : Bool) :
    ∀ (l : List TrainFileRow) (acc : ℚ),
      (selectBatchWithWrites limit pre segKeysOf w l acc).1 =
        selectBatch limit pre l acc := by
  intro l
  induction l with
  | nil => intro acc; rfl
  | cons f rest ih =>
    intro acc
    rw [selectBatchWithWrites, selectBatch]
    by_cases hfit : acc + f.size_mb ≤ limit
    · rw [if_pos hfit, if_pos hfit]
      cases hpre : pre f.source_audio_path with
      | ok => simp only [ih]
      | memError => simp only [ih]
      | otherError => simp only [ih]
    · rw [if_neg hfit, if_neg hfit]

/-- A train file whose pre-flight load raises a non-memory exception. -/
def c9Bad : TrainFileRow := { source_audio_path := "bad", size_mb := 0 }

/-- A train file whose pre-flight load succeeds. -/
def c9Good : TrainFileRow := { source_audio_path := "good", size_mb := 0 }

/-- Pre-flight outcomes of the c9 scenario. -/
def c9Pre : String → PreloadResult :=
  fun p => if p = "bad" then .otherError else .ok

/-- Manifest keys per source file in the c9 scenario. -/
def c9SegKeys : String → List String :=
  fun p => if p = "bad" then ["kbad"] else ["kgood"]

/-- The batch whose audio loading raises MemoryError in the c9 scenario. -/
def c9MemFiles : List UpFile :=
  [{ path := "p", load := .memError,
     segs := [{ key := "k", cer? := some ⟨1, 10, by decide, by decide⟩ }] }]

/-- C9 counterexample: a failure to persist a manifest status update is not
always fatal.  In the pre-flight scan of `process_train_subsets`, the failing
file's segments are written as `error` with the write result discarded
(here: the write fails, outcome `false`), and the scan continues and still
admits the remaining loadable file.  Moreover the out-of-memory path of
`process_and_push_batch` performs no manifest write at all — the handler sees
the empty pre-try failure dict — and reports success, so the claim's premise
of a status write on that path never even arises. -/
theorem claim_C9_counterexample :
    (selectBatchWithWrites 100 c9Pre c9SegKeys false [c9Bad, c9Good] 0).2
      = [([("kbad", "error", some FailReason.loadError)], false)] ∧
    (selectBatchWithWrites 100 c9Pre c9SegKeys false [c9Bad, c9Good] 0).1.1
      = [c9Good] ∧
    (process_and_push_batch DEFAULT_MAX_CER (fun _ => true) (fun _ => true)
      true false c9MemFiles).writes = [] ∧
    (process_and_push_batch DEFAULT_MAX_CER (fun _ => true) (fun _ => true)
      true false c9MemFiles).success = true := by
  have h1 : ¬ (("good" : String) = "bad") := by decide
  have h2 : (("bad" : String) = "bad") := rfl
  refine ⟨?_, ?_, rfl, rfl⟩ <;>
    norm_num [selectBatchWithWrites, c9Pre, c9SegKeys, c9Bad, c9Good, h1, h2]

/-- C9 amended: a failed manifest write is fatal on the uploader's batch
status-update path — any failed write recorded by `process_and_push_batch`
forces a failure report, halting the run — and a successful write never
halts it, whatever per-segment or push errors occurred.  But the
out-of-memory path performs no manifest write at all (the handler tests the
pre-try empty failure dict, so the segments stay pending) and reports
success; and the pre-flight load-error path of `process_train_subsets`
discards the manifest-write result: the candidate selection is identical
whether or not those writes succeed. -/
theorem claim_C9_amended (maxCer : ℚ) (exportOk : String → Bool)
    (pushOutcome : ℕ → Bool) (datasetOk : Bool) (files : List UpFile)
    (limit : ℚ) (pre : String → PreloadResult)
    (segKeysOf : String → List String) :
    (∀ su, (su, false) ∈ (process_and_push_batch maxCer exportOk pushOutcome
        datasetOk false files).writes →
      (process_and_push_batch maxCer exportOk pushOutcome datasetOk false
        files).success = false) ∧
    ((process_audio_files_for_batch maxCer exportOk files).2.2 = true →
      (process_and_push_batch maxCer exportOk pushOutcome datasetOk false
        files).writes = [] ∧
      (process_and_push_batch maxCer exportOk pushOutcome datasetOk false
        files).success = true) ∧
    (process_and_push_batch maxCer exportOk pushOutcome datasetOk true
      files).success = true ∧
    (∀ (w : Bool) (l : List TrainFileRow) (acc : ℚ),
      (selectBatchWithWrites limit pre segKeysOf w l acc).1 =
        selectBatch limit pre l acc) := by
  refine ⟨?_, ?_, ?_, ?_⟩
  · intro su hw
    unfold process_and_push_batch at hw ⊢
    by_cases hempty : (allUpSegs files).isEmpty
    · rw [if_pos hempty] at hw
      simp at hw
    · rw [if_neg hempty] at hw ⊢
      by_cases hmem : (process_audio_files_for_batch maxCer exportOk files).2.2
      · simp only [hmem, if_true] at hw
        simp at hw
      · simp only [Bool.not_eq_true] at hmem
        simp only [hmem, Bool.false_eq_true, if_false] at hw ⊢
        by_cases hsuemp : (buildStatusUpdates
            (process_audio_files_for_batch maxCer exportOk files).2.1
            (pushPhase pushOutcome datasetOk
              (process_audio_files_for_batch maxCer exportOk files).1).2
            (pushPhase pushOutcome datasetOk
              (process_audio_files_for_batch maxCer exportOk files).1).1).isEmpty
        · rw [if_pos hsuemp] at hw
          simp at hw
        · rw [if_neg hsuemp]
  · intro hmem
    unfold process_and_push_batch
    by_cases hempty : (allUpSegs files).isEmpty
    · rw [if_pos hempty]
      exact ⟨rfl, rfl⟩
    · rw [if_neg hempty]
      simp [hmem]
  · unfold process_and_push_batch
    by_cases hempty : (allUpSegs files).isEmpty
    · rw [if_pos hempty]
    · rw [if_neg hempty]
      by_cases hmem : (process_audio_files_for_batch maxCer exportOk files).2.2
      · simp only [hmem, if_true]
      · simp only [Bool.not_eq_true] at hmem
        simp only [hmem, Bool.false_eq_true, if_false]
        by_cases hsuemp : (buildStatusUpdates
            (process_audio_files_for_batch maxCer exportOk files).2.1
            (pushPhase pushOutcome datasetOk
              (process_audio_files_for_batch maxCer exportOk files).1).2
            (pushPhase pushOutcome datasetOk
              (process_audio_files_for_batch maxCer exportOk files).1).1).isEmpty
        · rw [if_pos hsuemp]
        · rw [if_neg hsuemp, if_pos trivial]
  · intro w l acc
    exact selectBatchWithWrites_fst limit pre segKeysOf w l acc

theorem claim_C9_amended_witness :
    (process_and_push_batch DEFAULT_MAX_CER (fun _ => true) (fun _ => true)
      true false c8Files).success = false ∧
    (process_and_push_batch DEFAULT_MAX_CER (fun _ => true) (fun _ => true)
      true false c9MemFiles).writes = [] ∧
    (process_and_push_batch DEFAULT_MAX_CER (fun _ => true) (fun _ => true)
      true true c8Files).success = true ∧
    (selectBatchWithWrites 0 c9Pre c9SegKeys false [] 0).1 =
      selectBatch 0 c9Pre [] 0 :=
  ⟨(claim_C9_amended DEFAULT_MAX_CER (fun _ => true) (fun _ => true) true
      c8Files 0 c9Pre c9SegKeys).1 c8Su (by decide),
   ((claim_C9_amended DEFAULT_MAX_CER (fun _ => true) (fun _ => true) true
      c9MemFiles 0 c9Pre c9SegKeys).2.1 (by decide)).1,
   (claim_C9_amended DEFAULT_MAX_CER (fun _ => true) (fun _ => true) true
      c8Files 0 c9Pre c9SegKeys).2.2.1,
   (claim_C9_amended DEFAULT_MAX_CER (fun _ => true) (fun _ => true) true
      c8Files 0 c9Pre c9SegKeys).2.2.2 false [] 0⟩

end UploadPipeline
